import Mathlib

/-!
# Connection list of the Magma cluster library (`magma/lib/clist.c`)

A shallow embedding of the connection registry and a verification of its
specification.

* The `TAILQ` rooted at `conn_list_head` is a `List conn_node`, first node first.
* C `int` values are `Int`; the registry code does no arithmetic on them (the
  `cn_fd + 1` handed to `select` belongs to the probe), only comparisons and `&`.
* An `fd_set` is a `Finset Int`: `FD_SET` inserts, `FD_CLR` erases, `FD_ISSET` tests
  membership, each for a descriptor from `0` to `FD_SETSIZE - 1` only. A call that hands
  a macro any other descriptor leaves the `fd_set` and has no defined behaviour;
  `fill_result.defined`, `next_set_defined` and `drain_defined` say whether a call
  stays inside.
* `select` is an oracle with a state of its own, so that its answer for one
  descriptor may differ from one call to the next; an oracle that answers by
  descriptor alone is the special case `det_probe`.
* `conn_list_mutex` is not modelled: every operation is one atomic step.
-/

namespace Clist

/-- Node in connection list (`conn_node_t`), without its queue links. -/
structure conn_node where
  cn_fd : Int
  cn_flags : Int
  cn_purpose : Int
deriving DecidableEq, Repr

/-- Value of `EBADF` in the Linux `errno.h`. -/
def EBADF : Int := 9

/-- Value of `EINVAL` in the Linux `errno.h`. -/
def EINVAL : Int := 22

/-- What one zero-timeout `select` call leaves behind: its return value and `errno`. -/
structure select_result where
  rv : Int
  errno : Int
deriving DecidableEq, Repr

/-- The test `select(...) == -1` followed by `errno == EBADF || errno == EINVAL`
of `clist_fill_fdset`. -/
def bad_descriptor (r : select_result) : Bool :=
  decide (r.rv = -1) && (decide (r.errno = EBADF) || decide (r.errno = EINVAL))

/-- The `for` loop of `locate_node` from the node `curr` onward: the first node whose
`cn_fd` is `fd`, together with the nodes left by `TAILQ_REMOVE` of that node. -/
def locate_scan (fd : Int) : List conn_node → Option (conn_node × List conn_node)
  | [] => none
  | c :: rest =>
    if c.cn_fd = fd then some (c, rest)
    else
      match locate_scan fd rest with
      | none => none
      | some (n, r) => some (n, c :: r)

/-- Embedding of `locate_node`: the located node (`NULL` is `none`) and the list, in
which the located node has been moved to the front by `TAILQ_INSERT_HEAD`. -/
def locate_node (l : List conn_node) (fd : Int) : Option conn_node × List conn_node :=
  match locate_scan fd l with
  | some (n, r) => (some n, n :: r)
  | none => (none, l)

/-- Embedding of `clist_delete_nt`. The node returned by `locate_node` is the head of
the list by then, so `TAILQ_REMOVE` of it leaves the tail. -/
def clist_delete_nt (l : List conn_node) (fd : Int) : Int × List conn_node :=
  match locate_node l fd with
  | (some _, l1) => (0, l1.tail)
  | (none, l1) => (1, l1)

/-- Embedding of `clist_insert`: return value and new list. -/
def clist_insert (l : List conn_node) (fd flags : Int) : Int × List conn_node :=
  (0, { cn_fd := fd, cn_flags := flags, cn_purpose := 0 } :: (clist_delete_nt l fd).2)

/-- Embedding of `clist_delete`: return value and new list. -/
def clist_delete (l : List conn_node) (fd : Int) : Int × List conn_node :=
  clist_delete_nt l fd

/-- Embedding of `clist_next_set`: return value and the caller's set afterwards.
The list is only read. `FD_ISSET` is membership and `FD_CLR` removal for a descriptor
within the capacity of the set; whether a call hands them only such descriptors is
`next_set_defined`. -/
def clist_next_set : List conn_node → Finset Int → Int × Finset Int
  | [], set => (-1, set)
  | c :: rest, set =>
    if c.cn_fd ∈ set then (c.cn_fd, set.erase c.cn_fd)
    else clist_next_set rest set

/-- Embedding of `clist_set_purpose`: return value and new list. The assignment
`curr->cn_purpose = purpose` hits the node that `locate_node` moved to the head. -/
def clist_set_purpose (l : List conn_node) (fd purpose : Int) : Int × List conn_node :=
  match locate_node l fd with
  | (some n, l1) => (0, { n with cn_purpose := purpose } :: l1.tail)
  | (none, l1) => (-1, l1)

/-- Embedding of `clist_get_purpose`: return value and new list. -/
def clist_get_purpose (l : List conn_node) (fd : Int) : Int × List conn_node :=
  match locate_node l fd with
  | (some n, l1) => (n.cn_purpose, l1)
  | (none, l1) => (-1, l1)

/-- Embedding of `clist_get_flags`: return value and new list. -/
def clist_get_flags (l : List conn_node) (fd : Int) : Int × List conn_node :=
  match locate_node l fd with
  | (some n, l1) => (n.cn_flags, l1)
  | (none, l1) => (0, l1)

/-- First `continue` test of `clist_fill_fdset`:
`flags && ((curr->cn_flags & flags) != flags)`. -/
def flags_skip (flags : Int) (c : conn_node) : Bool :=
  decide (flags ≠ 0) && decide (Int.land c.cn_flags flags ≠ flags)

/-- Second `continue` test of `clist_fill_fdset`:
`(purpose != MSGP_ALL) && (curr->cn_purpose != purpose)`. The constant `MSGP_ALL` is
defined in `magmamsg.h` and is a parameter here. -/
def purpose_skip (MSGP_ALL purpose : Int) (c : conn_node) : Bool :=
  decide (purpose ≠ MSGP_ALL) && decide (c.cn_purpose ≠ purpose)

/-- Capacity of an `fd_set`: `FD_SETSIZE` of `sys/select.h`, 1024 on Linux. -/
def FD_SETSIZE : Int := 1024

/-- The descriptors that `FD_SET`, `FD_CLR` and `FD_ISSET` are defined for: those from
`0` to `FD_SETSIZE - 1`. For any other descriptor the macros reach outside the `fd_set`
and the C program has no defined behaviour. -/
def fd_valid (fd : Int) : Bool := decide (0 ≤ fd) && decide (fd < FD_SETSIZE)

/-- How one run of the `for` loop of `clist_fill_fdset` ends: `done` when `curr` runs
off the end of the list, `top` when it leaves through `goto top` (the list is then the
one left by `clist_delete_nt`). Both carry the caller's set, `max`, the state of the
probe, and `defined`: whether every `FD_SET` so far was handed a descriptor within the
capacity of the `fd_set`. -/
inductive scan_end (σ : Type) where
  | done (set : Finset Int) (max : Int) (os : σ) (defined : Bool)
  | top (l : List conn_node) (set : Finset Int) (max : Int) (os : σ) (defined : Bool)

/-- One run of the `for` loop of `clist_fill_fdset` from the node `curr` onward; `head`
is the whole list, which the loop changes only on its way to `goto top`. An entry that
passes both tests is handed to `FD_SET(curr->cn_fd, &test_fds)`, then to the probe, and
when it is not evicted to `FD_SET(curr->cn_fd, set)`; each `FD_SET` is defined only for
a descriptor within the capacity of the `fd_set`, which `defined` records. Once
`defined` is false the other components are those of a run on sets without a capacity,
not the behaviour of the C program, which has none. -/
def fill_scan {σ : Type} (MSGP_ALL : Int) (probe : σ → Int → select_result × σ)
    (flags purpose : Int) (head : List conn_node) :
    List conn_node → Finset Int → Int → σ → Bool → scan_end σ
  | [], set, max, os, defined => scan_end.done set max os defined
  | c :: rest, set, max, os, defined =>
    if flags_skip flags c then
      fill_scan MSGP_ALL probe flags purpose head rest set max os defined
    else if purpose_skip MSGP_ALL purpose c then
      fill_scan MSGP_ALL probe flags purpose head rest set max os defined
    else
      let r := probe os c.cn_fd
      if bad_descriptor r.1 then
        scan_end.top (clist_delete_nt head c.cn_fd).2 set max r.2
          (defined && fd_valid c.cn_fd)
      else
        fill_scan MSGP_ALL probe flags purpose head rest (insert c.cn_fd set)
          (if c.cn_fd ≥ max then c.cn_fd else max) r.2
          (defined && fd_valid c.cn_fd && fd_valid c.cn_fd)

/-- Result of `clist_fill_fdset`: the list, the caller's set and the returned `max`,
with the state the probe is left in, and `defined`: whether every `FD_SET` of the call
was handed a descriptor within the capacity of the `fd_set`. The C program has a
behaviour, and the other fields describe it, only when `defined` is true. -/
structure fill_result (σ : Type) where
  conn_list : List conn_node
  set : Finset Int
  max : Int
  os : σ
  defined : Bool

/-- The label `top:` of `clist_fill_fdset`: run the `for` loop, and run it again from
the head after each `goto top`. One unit of `fuel` pays for one run of the loop. -/
def fill_top {σ : Type} (MSGP_ALL : Int) (probe : σ → Int → select_result × σ)
    (flags purpose : Int) :
    Nat → List conn_node → Finset Int → Int → σ → Bool → Option (fill_result σ)
  | 0, _, _, _, _, _ => none
  | fuel + 1, head, set, max, os, defined =>
    match fill_scan MSGP_ALL probe flags purpose head head set max os defined with
    | scan_end.done set1 max1 os1 defined1 =>
      some { conn_list := head, set := set1, max := max1, os := os1, defined := defined1 }
    | scan_end.top head1 set1 max1 os1 defined1 =>
      fill_top MSGP_ALL probe flags purpose fuel head1 set1 max1 os1 defined1

/-- Embedding of `clist_fill_fdset` on the list `l` with the caller's `set`; `max`
starts at `-1`. Every `goto top` follows the removal of a node, so `l.length + 1` runs
of the loop are enough (`fill_fdset_returns`). -/
def clist_fill_fdset {σ : Type} (MSGP_ALL : Int) (probe : σ → Int → select_result × σ)
    (os : σ) (l : List conn_node) (set : Finset Int) (flags purpose : Int) :
    Option (fill_result σ) :=
  fill_top MSGP_ALL probe flags purpose (l.length + 1) l set (-1) os true

/-- A probe that answers by descriptor alone: the same answer each time `select` is
asked about the same descriptor. -/
def det_probe (p : Int → select_result) : Unit → Int → select_result × Unit :=
  fun os fd => (p fd, os)

/-- A `select` that succeeds (returns `0`). -/
def select_ok : select_result := { rv := 0, errno := 0 }

/-- A `select` that fails with `errno`. -/
def select_fail (errno : Int) : select_result := { rv := -1, errno := errno }

/-! ## Vocabulary of the specification -/

/-- Test `curr->cn_fd == fd` of `locate_node`. -/
def has_fd (fd : Int) (c : conn_node) : Bool := decide (c.cn_fd = fd)

/-- Uniqueness: no two nodes of the list carry the same descriptor. -/
def uniq (l : List conn_node) : Prop := (l.map conn_node.cn_fd).Nodup

instance (l : List conn_node) : Decidable (uniq l) := by
  unfold uniq; infer_instance

/-- Descriptor `d` has an entry in the list. -/
def registered (l : List conn_node) (d : Int) : Prop := ∃ c ∈ l, c.cn_fd = d

instance (l : List conn_node) (d : Int) : Decidable (registered l d) := by
  unfold registered; infer_instance

/-- The filter of the set builder in the words of the specification: the flag mask is
zero or all of its bits are set in the entry's flags, and the purpose filter is the
wildcard or equals the entry's purpose. -/
def passes_filter (MSGP_ALL F P : Int) (c : conn_node) : Prop :=
  (F = 0 ∨ Int.land c.cn_flags F = F) ∧ (P = MSGP_ALL ∨ c.cn_purpose = P)

instance (MSGP_ALL F P : Int) (c : conn_node) : Decidable (passes_filter MSGP_ALL F P c) := by
  unfold passes_filter; infer_instance

/-- The probe reports an invalid handle: `select` returned `-1` with `errno` set to
`EBADF` or `EINVAL`. -/
def reports_invalid (r : select_result) : Prop :=
  r.rv = -1 ∧ (r.errno = EBADF ∨ r.errno = EINVAL)

instance (r : select_result) : Decidable (reports_invalid r) := by
  unfold reports_invalid; infer_instance

/-- The lists that the public operations can make of the empty list; `clist_next_set`
only reads the list. -/
inductive Reachable (MSGP_ALL : Int) : List conn_node → Prop where
  | init : Reachable MSGP_ALL []
  | insert {l : List conn_node} (fd flags : Int) :
      Reachable MSGP_ALL l → Reachable MSGP_ALL (clist_insert l fd flags).2
  | delete {l : List conn_node} (fd : Int) :
      Reachable MSGP_ALL l → Reachable MSGP_ALL (clist_delete l fd).2
  | set_purpose {l : List conn_node} (fd purpose : Int) :
      Reachable MSGP_ALL l → Reachable MSGP_ALL (clist_set_purpose l fd purpose).2
  | get_purpose {l : List conn_node} (fd : Int) :
      Reachable MSGP_ALL l → Reachable MSGP_ALL (clist_get_purpose l fd).2
  | get_flags {l : List conn_node} (fd : Int) :
      Reachable MSGP_ALL l → Reachable MSGP_ALL (clist_get_flags l fd).2
  | fill_fdset {l : List conn_node} {σ : Type} (probe : σ → Int → select_result × σ)
      (os : σ) (set : Finset Int) (flags purpose : Int) (r : fill_result σ) :
      Reachable MSGP_ALL l →
      clist_fill_fdset MSGP_ALL probe os l set flags purpose = some r →
      Reachable MSGP_ALL r.conn_list
  | next_set {l : List conn_node} (_set : Finset Int) :
      Reachable MSGP_ALL l → Reachable MSGP_ALL l

/-- The caller's drain loop: `n` calls of `clist_next_set` in a row on the same set;
the values returned, in order, and the set left. -/
def drain (l : List conn_node) : Nat → Finset Int → List Int × Finset Int
  | 0, set => ([], set)
  | n + 1, set =>
    let r := clist_next_set l set
    let rest := drain l n r.2
    (r.1 :: rest.1, rest.2)

/-- How the caller's set and `max` may change while `clist_fill_fdset` runs, when every
descriptor it adds satisfies `A`: the set only gains members, each new member satisfies
`A` and is at most the new `max`, and `max` only rises, to a member of the set. -/
def grows (A : Int → Prop) (set : Finset Int) (max : Int) (set1 : Finset Int) (max1 : Int) :
    Prop :=
  set ⊆ set1 ∧ (∀ x ∈ set1, x ∈ set ∨ A x) ∧ max ≤ max1 ∧ (max1 = max ∨ max1 ∈ set1) ∧
    (∀ x ∈ set1, x ∈ set ∨ x ≤ max1)

/-- Descriptor `x` belongs to an entry of `l` that passes the filter and that some call
of the probe does not report invalid. -/
def admissible {σ : Type} (MSGP_ALL : Int) (probe : σ → Int → select_result × σ)
    (F P : Int) (l : List conn_node) (x : Int) : Prop :=
  ∃ c ∈ l, passes_filter MSGP_ALL F P c ∧ c.cn_fd = x ∧ ∃ o, ¬ reports_invalid (probe o x).1

/-- Modelled from the spec: the flag bit "open" of `magmamsg.h`, which is not among the
sources; the flags are independently combinable bits, and this one is the first bit. -/
def MSG_OPEN : Int := 1

/-- Modelled from the spec: the flag bit "connected" of `magmamsg.h`, which is not among
the sources; a bit of its own, different from `MSG_OPEN`. -/
def MSG_CONNECTED : Int := 4

/-- The same end of a run of the `for` loop, had the caller's set held the members of
`S0` as well. -/
def scan_end.with_more {σ : Type} (S0 : Finset Int) : scan_end σ → scan_end σ
  | scan_end.done set max os defined => scan_end.done (S0 ∪ set) max os defined
  | scan_end.top l set max os defined => scan_end.top l (S0 ∪ set) max os defined

/-- The same result of `clist_fill_fdset`, had the caller's set held the members of `S0`
as well. -/
def fill_result.with_more {σ : Type} (S0 : Finset Int) (r : fill_result σ) : fill_result σ :=
  { r with set := S0 ∪ r.set }

/-- The `for` loop of `clist_next_set` from the node `curr` onward, with the whole list
`head` carried along as the global state: return value, the caller's set and the list
as the call leaves them. No statement of the loop writes to the queue. -/
def next_set_scan (head : List conn_node) :
    List conn_node → Finset Int → Int × Finset Int × List conn_node
  | [], set => (-1, set, head)
  | c :: rest, set =>
    if c.cn_fd ∈ set then (c.cn_fd, set.erase c.cn_fd, head)
    else next_set_scan head rest set

/-- Embedding of `clist_next_set` as a step on the whole state: return value, the
caller's set and the list afterwards. -/
def clist_next_set_state (l : List conn_node) (set : Finset Int) :
    Int × Finset Int × List conn_node :=
  next_set_scan l l set

/-- Number of `goto top` taken by `clist_fill_fdset`: the control flow of `fill_top`,
with a counter of the restarts in place of the result. -/
def fill_restarts {σ : Type} (MSGP_ALL : Int) (probe : σ → Int → select_result × σ)
    (flags purpose : Int) :
    Nat → List conn_node → Finset Int → Int → σ → Bool → Option Nat
  | 0, _, _, _, _, _ => none
  | fuel + 1, head, set, max, os, defined =>
    match fill_scan MSGP_ALL probe flags purpose head head set max os defined with
    | scan_end.done _ _ _ _ => some 0
    | scan_end.top head1 set1 max1 os1 defined1 =>
      (fill_restarts MSGP_ALL probe flags purpose fuel head1 set1 max1 os1 defined1).map
        (· + 1)

/-- State of the probe at the end of a run of the `for` loop. -/
def scan_end.os {σ : Type} : scan_end σ → σ
  | scan_end.done _ _ os _ => os
  | scan_end.top _ _ _ os _ => os

/-- A probe whose answers change with time: the first call of `select` succeeds when
it is about descriptor 5, every other call fails with `EBADF`. Its state counts the
calls. -/
def fading_probe : Nat → Int → select_result × Nat :=
  fun n fd => (if fd = 5 ∧ n = 0 then select_ok else select_fail EBADF, n + 1)

/-- Whether the run of the `for` loop stayed within the capacity of the `fd_set`s. -/
def scan_end.defined {σ : Type} : scan_end σ → Bool
  | scan_end.done _ _ _ defined => defined
  | scan_end.top _ _ _ _ defined => defined

/-- Every entry of `l` that passes the filter has its descriptor within the capacity of
an `fd_set`: the entries that `clist_fill_fdset` hands to `FD_SET`. -/
def passing_in_range (MSGP_ALL F P : Int) (l : List conn_node) : Prop :=
  ∀ c ∈ l, passes_filter MSGP_ALL F P c → fd_valid c.cn_fd = true

instance (MSGP_ALL F P : Int) (l : List conn_node) :
    Decidable (passing_in_range MSGP_ALL F P l) := by
  unfold passing_in_range; infer_instance

/-- Every descriptor of `l` is within the capacity of an `fd_set`. -/
def all_in_range (l : List conn_node) : Prop := ∀ c ∈ l, fd_valid c.cn_fd = true

instance (l : List conn_node) : Decidable (all_in_range l) := by
  unfold all_in_range; infer_instance

/-- What `select` does with its first argument: the call fails with `EINVAL` when it is
negative. `clist_fill_fdset` passes `cn_fd + 1`, so a probe that stands for `select`
reports as invalid every descriptor below `-1`. -/
def honours_nfds {σ : Type} (probe : σ → Int → select_result × σ) : Prop :=
  ∀ o fd, fd + 1 < 0 → reports_invalid (probe o fd).1

/-- The probe with a log attached: it answers as `probe` does and moves the state of
`probe` as `probe` does, and it records each call, latest first, as the descriptor
asked about and the answer given. -/
def traced {σ : Type} (probe : σ → Int → select_result × σ) :
    σ × List (Int × select_result) → Int → select_result × (σ × List (Int × select_result)) :=
  fun s fd => ((probe s.1 fd).1, ((probe s.1 fd).2, (fd, (probe s.1 fd).1) :: s.2))

/-- The same end of a run of the loop, with the state of the probe seen through `f`. -/
def scan_end.map_os {σ τ : Type} (f : σ → τ) : scan_end σ → scan_end τ
  | scan_end.done set max os defined => scan_end.done set max (f os) defined
  | scan_end.top l set max os defined => scan_end.top l set max (f os) defined

/-- The same result of `clist_fill_fdset`, with the state of the probe seen through
`f`. -/
def fill_result.map_os {σ τ : Type} (f : σ → τ) (r : fill_result σ) : fill_result τ :=
  { conn_list := r.conn_list, set := r.set, max := r.max, os := f r.os,
    defined := r.defined }

/-- Whether one call of `clist_next_set` stays within the capacity of the caller's set:
`FD_ISSET(curr->cn_fd, set)`, and `FD_CLR` after it, are defined only for a descriptor
from `0` to `FD_SETSIZE - 1`, and the loop hands them every node up to the first one it
finds in the set. Where this is false the C program has no defined behaviour and
`clist_next_set` describes a set without a capacity. -/
def next_set_defined : List conn_node → Finset Int → Bool
  | [], _ => true
  | c :: rest, set =>
    fd_valid c.cn_fd && (if c.cn_fd ∈ set then true else next_set_defined rest set)

/-- Whether each of `n` calls of `clist_next_set` in a row stays within the capacity of
the caller's set. -/
def drain_defined (l : List conn_node) : Nat → Finset Int → Bool
  | 0, _ => true
  | n + 1, set => next_set_defined l set && drain_defined l n (clist_next_set l set).2

/-- A probe that stands for `select` on descriptors that are all open: it fails with
`EINVAL` when `cn_fd + 1` is negative and succeeds otherwise. -/
def nfds_probe : Int → select_result :=
  fun fd => if fd + 1 < 0 then select_fail EINVAL else select_ok

/-! ## The list operations -/

theorem locate_scan_eq (fd : Int) (l : List conn_node) :
    locate_scan fd l =
      (l.find? (has_fd fd)).map (fun n => (n, l.eraseP (has_fd fd))) := by
  induction l with
  | nil => rfl
  | cons c rest ih =>
    by_cases h : c.cn_fd = fd
    · simp [locate_scan, has_fd, h]
    · simp [locate_scan, has_fd, h, ih]
      cases hf : List.find? (has_fd fd) rest <;> simp [has_fd] at hf ⊢

theorem find_has_fd_none {l : List conn_node} {fd : Int} :
    l.find? (has_fd fd) = none ↔ ¬ registered l fd := by
  simp [registered, has_fd, List.find?_eq_none]

theorem locate_node_absent {l : List conn_node} {fd : Int} (h : ¬ registered l fd) :
    locate_node l fd = (none, l) := by
  unfold locate_node
  rw [locate_scan_eq, find_has_fd_none.2 h]
  rfl

theorem locate_node_present {l : List conn_node} {fd : Int} {n : conn_node}
    (h : l.find? (has_fd fd) = some n) :
    locate_node l fd = (some n, n :: l.eraseP (has_fd fd)) := by
  unfold locate_node
  rw [locate_scan_eq, h]
  rfl

theorem find_has_fd_some {l : List conn_node} {fd : Int} (h : registered l fd) :
    ∃ n, l.find? (has_fd fd) = some n ∧ n ∈ l ∧ n.cn_fd = fd := by
  cases hf : l.find? (has_fd fd) with
  | none => exact absurd h (find_has_fd_none.1 hf)
  | some n =>
    refine ⟨n, rfl, List.mem_of_find?_eq_some hf, ?_⟩
    have := List.find?_some hf
    simpa [has_fd] using this

theorem delete_nt_list (l : List conn_node) (fd : Int) :
    (clist_delete_nt l fd).2 = l.eraseP (has_fd fd) := by
  unfold clist_delete_nt
  by_cases h : registered l fd
  · obtain ⟨n, hn, -, -⟩ := find_has_fd_some h
    rw [locate_node_present hn]
    rfl
  · rw [locate_node_absent h]
    simp only []
    rw [List.eraseP_of_forall_not]
    intro a ha hfd
    exact h ⟨a, ha, by simpa [has_fd] using hfd⟩

theorem delete_nt_rv (l : List conn_node) (fd : Int) :
    (clist_delete_nt l fd).1 = if registered l fd then 0 else 1 := by
  unfold clist_delete_nt
  by_cases h : registered l fd
  · obtain ⟨n, hn, -, -⟩ := find_has_fd_some h
    rw [locate_node_present hn, if_pos h]
  · rw [locate_node_absent h, if_neg h]

theorem find_perm {l : List conn_node} {fd : Int} {n : conn_node}
    (h : l.find? (has_fd fd) = some n) : (n :: l.eraseP (has_fd fd)).Perm l := by
  induction l with
  | nil => simp at h
  | cons c rest ih =>
    by_cases hc : has_fd fd c = true
    · simp [List.find?_cons, hc] at h
      subst h
      simp [List.eraseP_cons, hc]
    · simp [List.find?_cons, hc] at h
      simp only [List.eraseP_cons, hc, Bool.false_eq_true, if_false]
      exact (List.Perm.swap c n _).trans ((ih h).cons c)

theorem uniq_sublist {l1 l2 : List conn_node} (hs : List.Sublist l1 l2) (h : uniq l2) :
    uniq l1 :=
  List.Nodup.sublist (hs.map conn_node.cn_fd) h

theorem uniq_perm {l1 l2 : List conn_node} (hp : l1.Perm l2) (h : uniq l2) : uniq l1 :=
  ((hp.map conn_node.cn_fd).nodup_iff).2 h

theorem uniq_eraseP {l : List conn_node} (p : conn_node → Bool) (h : uniq l) :
    uniq (l.eraseP p) :=
  uniq_sublist (List.eraseP_sublist l) h

theorem uniq_eq {l : List conn_node} (h : uniq l) {a b : conn_node} (ha : a ∈ l)
    (hb : b ∈ l) (hab : a.cn_fd = b.cn_fd) : a = b :=
  List.inj_on_of_nodup_map h ha hb hab

theorem uniq_cons {l : List conn_node} {c : conn_node} :
    uniq (c :: l) ↔ ¬ registered l c.cn_fd ∧ uniq l := by
  unfold uniq registered
  simp [List.nodup_cons]

theorem uniq_eraseP_eq_filter {l : List conn_node} (h : uniq l) (d : Int) :
    l.eraseP (has_fd d) = l.filter (fun c => !has_fd d c) := by
  induction l with
  | nil => rfl
  | cons c rest ih =>
    obtain ⟨hc, hr⟩ := uniq_cons.1 h
    by_cases hd : has_fd d c = true
    · have hfd : c.cn_fd = d := by simpa [has_fd] using hd
      rw [List.eraseP_cons_of_pos hd, List.filter_cons_of_neg (by simp [hd])]
      symm
      rw [List.filter_eq_self]
      intro a ha
      by_cases hfa : a.cn_fd = d
      · exact absurd ⟨a, ha, hfa.trans hfd.symm⟩ hc
      · simp [has_fd, hfa]
    · rw [List.eraseP_cons_of_neg hd, List.filter_cons_of_pos (by simp [hd]), ih hr]

theorem not_registered_eraseP {l : List conn_node} (h : uniq l) (d : Int) :
    ¬ registered (l.eraseP (has_fd d)) d := by
  rw [uniq_eraseP_eq_filter h]
  rintro ⟨c, hc, hd⟩
  simp [List.mem_filter, has_fd] at hc
  exact hc.2 hd

theorem registered_of_sublist {l1 l2 : List conn_node} (hs : List.Sublist l1 l2) {d : Int}
    (h : registered l1 d) : registered l2 d := by
  obtain ⟨c, hc, hd⟩ := h
  exact ⟨c, hs.subset hc, hd⟩

/-- With uniqueness, the node found for a descriptor is the entry of that descriptor. -/
theorem find_of_mem {l : List conn_node} (h : uniq l) {c : conn_node} (hc : c ∈ l) :
    l.find? (has_fd c.cn_fd) = some c := by
  obtain ⟨n, hn, hmem, hfd⟩ := find_has_fd_some ⟨c, hc, rfl⟩
  rw [hn, uniq_eq h hmem hc hfd]

theorem insert_list (l : List conn_node) (fd flags : Int) :
    (clist_insert l fd flags).2 =
      { cn_fd := fd, cn_flags := flags, cn_purpose := 0 } :: l.eraseP (has_fd fd) := by
  simp [clist_insert, delete_nt_list]

theorem set_purpose_absent {l : List conn_node} {fd : Int} (h : ¬ registered l fd)
    (p : Int) : clist_set_purpose l fd p = (-1, l) := by
  unfold clist_set_purpose
  rw [locate_node_absent h]

theorem set_purpose_present {l : List conn_node} {fd : Int} {n : conn_node}
    (h : l.find? (has_fd fd) = some n) (p : Int) :
    clist_set_purpose l fd p = (0, { n with cn_purpose := p } :: l.eraseP (has_fd fd)) := by
  unfold clist_set_purpose
  rw [locate_node_present h]
  rfl

theorem get_purpose_absent {l : List conn_node} {fd : Int} (h : ¬ registered l fd) :
    clist_get_purpose l fd = (-1, l) := by
  unfold clist_get_purpose
  rw [locate_node_absent h]

theorem get_purpose_present {l : List conn_node} {fd : Int} {n : conn_node}
    (h : l.find? (has_fd fd) = some n) :
    clist_get_purpose l fd = (n.cn_purpose, n :: l.eraseP (has_fd fd)) := by
  unfold clist_get_purpose
  rw [locate_node_present h]

theorem get_flags_absent {l : List conn_node} {fd : Int} (h : ¬ registered l fd) :
    clist_get_flags l fd = (0, l) := by
  unfold clist_get_flags
  rw [locate_node_absent h]

theorem get_flags_present {l : List conn_node} {fd : Int} {n : conn_node}
    (h : l.find? (has_fd fd) = some n) :
    clist_get_flags l fd = (n.cn_flags, n :: l.eraseP (has_fd fd)) := by
  unfold clist_get_flags
  rw [locate_node_present h]

/-- The node found by `locate_node` is the head of the list it leaves. -/
theorem find_head (fd : Int) (n : conn_node) (rest : List conn_node) (h : n.cn_fd = fd) :
    (n :: rest).find? (has_fd fd) = some n := by
  simp [List.find?_cons, has_fd, h]

/-! ## Uniqueness is kept by every operation -/

theorem uniq_insert {l : List conn_node} (h : uniq l) (fd flags : Int) :
    uniq (clist_insert l fd flags).2 := by
  rw [insert_list]
  exact uniq_cons.2 ⟨not_registered_eraseP h fd, uniq_eraseP _ h⟩

theorem uniq_delete {l : List conn_node} (h : uniq l) (fd : Int) :
    uniq (clist_delete l fd).2 := by
  unfold clist_delete
  rw [delete_nt_list]
  exact uniq_eraseP _ h

theorem uniq_locate {l : List conn_node} (h : uniq l) {fd : Int} {n : conn_node}
    (hn : l.find? (has_fd fd) = some n) : uniq (n :: l.eraseP (has_fd fd)) :=
  uniq_perm (find_perm hn) h

theorem uniq_set_purpose {l : List conn_node} (h : uniq l) (fd p : Int) :
    uniq (clist_set_purpose l fd p).2 := by
  by_cases hr : registered l fd
  · obtain ⟨n, hn, -, -⟩ := find_has_fd_some hr
    rw [set_purpose_present hn]
    have := uniq_locate h hn
    unfold uniq at this ⊢
    simpa using this
  · rw [set_purpose_absent hr]
    exact h

theorem uniq_get_purpose {l : List conn_node} (h : uniq l) (fd : Int) :
    uniq (clist_get_purpose l fd).2 := by
  by_cases hr : registered l fd
  · obtain ⟨n, hn, -, -⟩ := find_has_fd_some hr
    rw [get_purpose_present hn]
    exact uniq_locate h hn
  · rw [get_purpose_absent hr]
    exact h

theorem uniq_get_flags {l : List conn_node} (h : uniq l) (fd : Int) :
    uniq (clist_get_flags l fd).2 := by
  by_cases hr : registered l fd
  · obtain ⟨n, hn, -, -⟩ := find_has_fd_some hr
    rw [get_flags_present hn]
    exact uniq_locate h hn
  · rw [get_flags_absent hr]
    exact h

theorem uniq_iff_countP (l : List conn_node) :
    uniq l ↔ ∀ d : Int, l.countP (fun c => decide (c.cn_fd = d)) ≤ 1 := by
  unfold uniq
  rw [List.nodup_iff_count_le_one]
  have key : ∀ d : Int, List.count d (l.map conn_node.cn_fd) =
      l.countP (fun c => decide (c.cn_fd = d)) := by
    intro d
    rw [List.count, List.countP_map]
    congr 1
  constructor
  · intro h d
    rw [← key]
    exact h d
  · intro h d
    rw [key]
    exact h d

/-! ## The set builder -/

theorem passes_filter_iff (M F P : Int) (c : conn_node) :
    passes_filter M F P c ↔ flags_skip F c = false ∧ purpose_skip M P c = false := by
  unfold passes_filter flags_skip purpose_skip
  simp only [Bool.and_eq_false_imp, decide_eq_true_eq, decide_eq_false_iff_not, ne_eq,
    not_not]
  constructor
  · rintro ⟨h1, h2⟩
    exact ⟨fun hF => h1.resolve_left hF, fun hP => h2.resolve_left hP⟩
  · rintro ⟨h1, h2⟩
    exact ⟨by by_cases hF : F = 0; exacts [Or.inl hF, Or.inr (h1 hF)],
      by by_cases hP : P = M; exacts [Or.inl hP, Or.inr (h2 hP)]⟩

theorem reports_invalid_iff (r : select_result) :
    reports_invalid r ↔ bad_descriptor r = true := by
  unfold reports_invalid bad_descriptor
  simp

theorem grows_refl (A : Int → Prop) (set : Finset Int) (max : Int) :
    grows A set max set max :=
  ⟨Finset.Subset.refl _, fun _ hx => Or.inl hx, le_refl _, Or.inl rfl, fun _ hx => Or.inl hx⟩

theorem grows_mono {A B : Int → Prop} (hAB : ∀ x, A x → B x) {set set1 : Finset Int}
    {max max1 : Int} (h : grows A set max set1 max1) : grows B set max set1 max1 :=
  ⟨h.1, fun x hx => (h.2.1 x hx).imp_right (hAB x), h.2.2.1, h.2.2.2.1, h.2.2.2.2⟩

theorem grows_trans {A : Int → Prop} {s s1 s2 : Finset Int} {m m1 m2 : Int}
    (h1 : grows A s m s1 m1) (h2 : grows A s1 m1 s2 m2) : grows A s m s2 m2 := by
  obtain ⟨a1, b1, c1, d1, e1⟩ := h1
  obtain ⟨a2, b2, c2, d2, e2⟩ := h2
  refine ⟨a1.trans a2, ?_, c1.trans c2, ?_, ?_⟩
  · intro x hx
    rcases b2 x hx with h | h
    · exact b1 x h
    · exact Or.inr h
  · rcases d2 with h | h
    · rcases d1 with h3 | h3
      · exact Or.inl (h.trans h3)
      · exact Or.inr (h ▸ a2 h3)
    · exact Or.inr h
  · intro x hx
    rcases e2 x hx with h | h
    · rcases e1 x h with h3 | h3
      · exact Or.inl h3
      · exact Or.inr (h3.trans c2)
    · exact Or.inr h

theorem grows_step {A : Int → Prop} {fd : Int} (hA : A fd) (set : Finset Int) (max : Int) :
    grows A set max (insert fd set) (if fd ≥ max then fd else max) := by
  refine ⟨Finset.subset_insert _ _, ?_, ?_, ?_, ?_⟩
  · intro x hx
    rcases Finset.mem_insert.1 hx with h | h
    · exact Or.inr (h ▸ hA)
    · exact Or.inl h
  · split <;> omega
  · split
    · exact Or.inr (Finset.mem_insert_self _ _)
    · exact Or.inl rfl
  · intro x hx
    rcases Finset.mem_insert.1 hx with h | h
    · right
      subst h
      split <;> omega
    · exact Or.inl h

theorem admissible_cons {σ : Type} (M : Int) (probe : σ → Int → select_result × σ)
    (F P : Int) (c : conn_node) (l : List conn_node) (x : Int)
    (h : admissible M probe F P l x) : admissible M probe F P (c :: l) x := by
  obtain ⟨a, ha, hrest⟩ := h
  exact ⟨a, List.mem_cons_of_mem _ ha, hrest⟩

/-- A run of the `for` loop that reaches the end of the list has added the descriptor of
every entry that passes the filter, after a probe that did not report it invalid. -/
theorem fill_scan_done {σ : Type} (M : Int) (probe : σ → Int → select_result × σ)
    (F P : Int) (head : List conn_node) :
    ∀ (rem : List conn_node) (set : Finset Int) (max : Int) (os : σ) (ok : Bool)
      (set1 : Finset Int) (max1 : Int) (os1 : σ) (ok1 : Bool),
      fill_scan M probe F P head rem set max os ok = scan_end.done set1 max1 os1 ok1 →
      grows (admissible M probe F P rem) set max set1 max1 ∧
      ∀ c ∈ rem, passes_filter M F P c →
        c.cn_fd ∈ set1 ∧ ∃ o, ¬ reports_invalid (probe o c.cn_fd).1 := by
  intro rem
  induction rem with
  | nil =>
    intro set max os ok set1 max1 os1 ok1 h
    simp only [fill_scan, scan_end.done.injEq] at h
    obtain ⟨rfl, rfl, -, -⟩ := h
    exact ⟨grows_refl _ _ _, fun c hc => absurd hc (List.not_mem_nil c)⟩
  | cons c rest ih =>
    intro set max os ok set1 max1 os1 ok1 h
    unfold fill_scan at h
    by_cases hf : flags_skip F c = true
    · rw [if_pos hf] at h
      obtain ⟨hg, hall⟩ := ih _ _ _ _ _ _ _ _ h
      refine ⟨grows_mono (admissible_cons M probe F P c rest) hg, ?_⟩
      intro a ha hpa
      rcases List.mem_cons.1 ha with rfl | ha
      · rw [passes_filter_iff] at hpa
        rw [hpa.1] at hf
        exact absurd hf (by simp)
      · exact hall a ha hpa
    · rw [if_neg hf] at h
      by_cases hp : purpose_skip M P c = true
      · rw [if_pos hp] at h
        obtain ⟨hg, hall⟩ := ih _ _ _ _ _ _ _ _ h
        refine ⟨grows_mono (admissible_cons M probe F P c rest) hg, ?_⟩
        intro a ha hpa
        rcases List.mem_cons.1 ha with rfl | ha
        · rw [passes_filter_iff] at hpa
          rw [hpa.2] at hp
          exact absurd hp (by simp)
        · exact hall a ha hpa
      · rw [if_neg hp] at h
        simp only [] at h
        by_cases hb : bad_descriptor (probe os c.cn_fd).1 = true
        · rw [if_pos hb] at h
          exact absurd h (by simp)
        · rw [if_neg hb] at h
          obtain ⟨hg, hall⟩ := ih _ _ _ _ _ _ _ _ h
          have hpass : passes_filter M F P c :=
            (passes_filter_iff M F P c).2 ⟨by simpa using hf, by simpa using hp⟩
          have hgood : ¬ reports_invalid (probe os c.cn_fd).1 := by
            rw [reports_invalid_iff]; exact hb
          have hadm : admissible M probe F P (c :: rest) c.cn_fd :=
            ⟨c, List.mem_cons_self _ _, hpass, rfl, os, hgood⟩
          refine ⟨grows_trans (grows_step hadm set max)
            (grows_mono (admissible_cons M probe F P c rest) hg), ?_⟩
          intro a ha hpa
          rcases List.mem_cons.1 ha with rfl | ha
          · exact ⟨hg.1 (Finset.mem_insert_self _ _), os, hgood⟩
          · exact hall a ha hpa

/-- A run of the `for` loop that leaves through `goto top` has met an entry that passes
the filter and that the probe reported invalid, and has removed the first node carrying
that descriptor. -/
theorem fill_scan_top {σ : Type} (M : Int) (probe : σ → Int → select_result × σ)
    (F P : Int) (head : List conn_node) :
    ∀ (rem : List conn_node) (set : Finset Int) (max : Int) (os : σ) (ok : Bool)
      (l1 : List conn_node) (set1 : Finset Int) (max1 : Int) (os1 : σ) (ok1 : Bool),
      fill_scan M probe F P head rem set max os ok = scan_end.top l1 set1 max1 os1 ok1 →
      grows (admissible M probe F P rem) set max set1 max1 ∧
      ∃ c ∈ rem, passes_filter M F P c ∧ (∃ o, reports_invalid (probe o c.cn_fd).1) ∧
        l1 = head.eraseP (has_fd c.cn_fd) := by
  intro rem
  induction rem with
  | nil =>
    intro set max os ok l1 set1 max1 os1 ok1 h
    simp [fill_scan] at h
  | cons c rest ih =>
    intro set max os ok l1 set1 max1 os1 ok1 h
    unfold fill_scan at h
    by_cases hf : flags_skip F c = true
    · rw [if_pos hf] at h
      obtain ⟨hg, a, ha, hrest⟩ := ih _ _ _ _ _ _ _ _ _ h
      exact ⟨grows_mono (admissible_cons M probe F P c rest) hg, a,
        List.mem_cons_of_mem _ ha, hrest⟩
    · rw [if_neg hf] at h
      by_cases hp : purpose_skip M P c = true
      · rw [if_pos hp] at h
        obtain ⟨hg, a, ha, hrest⟩ := ih _ _ _ _ _ _ _ _ _ h
        exact ⟨grows_mono (admissible_cons M probe F P c rest) hg, a,
          List.mem_cons_of_mem _ ha, hrest⟩
      · rw [if_neg hp] at h
        simp only [] at h
        have hpass : passes_filter M F P c :=
          (passes_filter_iff M F P c).2 ⟨by simpa using hf, by simpa using hp⟩
        by_cases hb : bad_descriptor (probe os c.cn_fd).1 = true
        · rw [if_pos hb] at h
          simp only [scan_end.top.injEq] at h
          obtain ⟨rfl, rfl, rfl, -, -⟩ := h
          exact ⟨grows_refl _ _ _, c, List.mem_cons_self _ _, hpass,
            ⟨os, (reports_invalid_iff _).2 hb⟩, delete_nt_list head c.cn_fd⟩
        · rw [if_neg hb] at h
          obtain ⟨hg, a, ha, hrest⟩ := ih _ _ _ _ _ _ _ _ _ h
          have hgood : ¬ reports_invalid (probe os c.cn_fd).1 := by
            rw [reports_invalid_iff]; exact hb
          have hadm : admissible M probe F P (c :: rest) c.cn_fd :=
            ⟨c, List.mem_cons_self _ _, hpass, rfl, os, hgood⟩
          exact ⟨grows_trans (grows_step hadm set max)
            (grows_mono (admissible_cons M probe F P c rest) hg), a,
            List.mem_cons_of_mem _ ha, hrest⟩

theorem admissible_eraseP {σ : Type} (M : Int) (probe : σ → Int → select_result × σ)
    (F P : Int) (p : conn_node → Bool) (l : List conn_node) (x : Int)
    (h : admissible M probe F P (l.eraseP p) x) : admissible M probe F P l x := by
  obtain ⟨a, ha, hrest⟩ := h
  exact ⟨a, (List.eraseP_sublist l).subset ha, hrest⟩

/-- What `clist_fill_fdset` has done when it returns, for any probe: the list is a
sublist of the one it started from; the set and `max` have grown by admissible
descriptors; every entry left that passes the filter has its descriptor in the set; and
every entry removed shares its descriptor with an entry that passed the filter and was
reported invalid. -/
theorem fill_top_spec {σ : Type} (M : Int) (probe : σ → Int → select_result × σ)
    (F P : Int) :
    ∀ (fuel : Nat) (head : List conn_node) (set : Finset Int) (max : Int) (os : σ)
      (ok : Bool) (r : fill_result σ),
      fill_top M probe F P fuel head set max os ok = some r →
      List.Sublist r.conn_list head ∧
      grows (admissible M probe F P head) set max r.set r.max ∧
      (∀ c ∈ r.conn_list, passes_filter M F P c →
        c.cn_fd ∈ r.set ∧ ∃ o, ¬ reports_invalid (probe o c.cn_fd).1) ∧
      (∀ c ∈ head, c ∉ r.conn_list →
        ∃ a ∈ head, passes_filter M F P a ∧ a.cn_fd = c.cn_fd ∧
          ∃ o, reports_invalid (probe o c.cn_fd).1) := by
  intro fuel
  induction fuel with
  | zero =>
    intro head set max os ok r h
    simp [fill_top] at h
  | succ n ih =>
    intro head set max os ok r h
    unfold fill_top at h
    cases hs : fill_scan M probe F P head head set max os ok with
    | done set1 max1 os1 ok1 =>
      rw [hs] at h
      simp only [Option.some.injEq] at h
      subst h
      obtain ⟨hg, hall⟩ :=
        fill_scan_done M probe F P head head set max os ok set1 max1 os1 ok1 hs
      exact ⟨List.Sublist.refl _, hg, hall, fun c hc hn => absurd hc hn⟩
    | top l1 set1 max1 os1 ok1 =>
      rw [hs] at h
      simp only [] at h
      obtain ⟨hg, a, ha, hpa, ⟨o, hbad⟩, hl1⟩ :=
        fill_scan_top M probe F P head head set max os ok l1 set1 max1 os1 ok1 hs
      obtain ⟨hsub, hg2, hall, hrem⟩ := ih l1 set1 max1 os1 ok1 r h
      subst hl1
      refine ⟨hsub.trans (List.eraseP_sublist head),
        grows_trans hg (grows_mono (admissible_eraseP M probe F P _ head) hg2), hall, ?_⟩
      intro c hc hn
      by_cases hc1 : c ∈ head.eraseP (has_fd a.cn_fd)
      · obtain ⟨b, hb, hrest⟩ := hrem c hc1 hn
        exact ⟨b, (List.eraseP_sublist head).subset hb, hrest⟩
      · have hfd : has_fd a.cn_fd c = true := by
          by_contra hne
          exact hc1 ((List.mem_eraseP_of_neg hne).2 hc)
        have hfd2 : c.cn_fd = a.cn_fd := by simpa [has_fd] using hfd
        exact ⟨a, ha, hpa, hfd2.symm, o, hfd2 ▸ hbad⟩

/-- The scan-restart loop always returns: `head.length + 1` runs of the `for` loop are
enough, since each `goto top` follows the removal of a node. -/
theorem fill_top_some {σ : Type} (M : Int) (probe : σ → Int → select_result × σ)
    (F P : Int) :
    ∀ (fuel : Nat) (head : List conn_node) (set : Finset Int) (max : Int) (os : σ)
      (ok : Bool),
      head.length < fuel → ∃ r, fill_top M probe F P fuel head set max os ok = some r := by
  intro fuel
  induction fuel with
  | zero =>
    intro head set max os ok h
    exact absurd h (Nat.not_lt_zero _)
  | succ n ih =>
    intro head set max os ok h
    unfold fill_top
    cases hs : fill_scan M probe F P head head set max os ok with
    | done set1 max1 os1 ok1 => exact ⟨_, rfl⟩
    | top l1 set1 max1 os1 ok1 =>
      simp only []
      obtain ⟨-, a, ha, -, -, hl1⟩ :=
        fill_scan_top M probe F P head head set max os ok l1 set1 max1 os1 ok1 hs
      apply ih
      subst hl1
      have hlen := List.length_eraseP_of_mem ha (show has_fd a.cn_fd a = true by simp [has_fd])
      have hpos : 0 < head.length := List.length_pos_of_mem ha
      omega

theorem fill_fdset_returns {σ : Type} (M : Int) (probe : σ → Int → select_result × σ)
    (os : σ) (l : List conn_node) (set : Finset Int) (F P : Int) :
    ∃ r, clist_fill_fdset M probe os l set F P = some r :=
  fill_top_some M probe F P (l.length + 1) l set (-1) os true (Nat.lt_succ_self _)

theorem fill_fdset_spec {σ : Type} (M : Int) (probe : σ → Int → select_result × σ)
    (os : σ) (l : List conn_node) (set : Finset Int) (F P : Int) (r : fill_result σ)
    (h : clist_fill_fdset M probe os l set F P = some r) :
    List.Sublist r.conn_list l ∧
    grows (admissible M probe F P l) set (-1) r.set r.max ∧
    (∀ c ∈ r.conn_list, passes_filter M F P c →
      c.cn_fd ∈ r.set ∧ ∃ o, ¬ reports_invalid (probe o c.cn_fd).1) ∧
    (∀ c ∈ l, c ∉ r.conn_list →
      ∃ a ∈ l, passes_filter M F P a ∧ a.cn_fd = c.cn_fd ∧
        ∃ o, reports_invalid (probe o c.cn_fd).1) :=
  fill_top_spec M probe F P (l.length + 1) l set (-1) os true r h

/-! ## Reachable lists -/

theorem reachable_uniq {M : Int} {l : List conn_node} (h : Reachable M l) : uniq l := by
  induction h with
  | init => exact List.nodup_nil
  | insert fd flags _ ih => exact uniq_insert ih fd flags
  | delete fd _ ih => exact uniq_delete ih fd
  | set_purpose fd p _ ih => exact uniq_set_purpose ih fd p
  | get_purpose fd _ ih => exact uniq_get_purpose ih fd
  | get_flags fd _ ih => exact uniq_get_flags ih fd
  | fill_fdset probe os set F P r _ hr ih =>
    exact uniq_sublist (fill_fdset_spec M probe os _ set F P r hr).1 ih
  | next_set _ _ ih => exact ih

/-- Every list with uniqueness is reached by the public operations: insert the entries
from the last to the first, giving each its purpose. -/
theorem uniq_reachable (M : Int) : ∀ l : List conn_node, uniq l → Reachable M l := by
  intro l
  induction l with
  | nil => intro _; exact Reachable.init
  | cons c rest ih =>
    intro hu
    obtain ⟨hc, hr⟩ := uniq_cons.1 hu
    have h1 : Reachable M (clist_insert rest c.cn_fd c.cn_flags).2 :=
      Reachable.insert c.cn_fd c.cn_flags (ih hr)
    have h2 := Reachable.set_purpose c.cn_fd c.cn_purpose h1
    have hl : (clist_insert rest c.cn_fd c.cn_flags).2 =
        { cn_fd := c.cn_fd, cn_flags := c.cn_flags, cn_purpose := 0 } :: rest := by
      rw [insert_list, List.eraseP_of_forall_not]
      intro a ha hfd
      exact hc ⟨a, ha, by simpa [has_fd] using hfd⟩
    rw [hl, set_purpose_present (find_head c.cn_fd
      { cn_fd := c.cn_fd, cn_flags := c.cn_flags, cn_purpose := 0 } rest rfl)] at h2
    have hc2 : has_fd c.cn_fd
        { cn_fd := c.cn_fd, cn_flags := c.cn_flags, cn_purpose := 0 } = true := by
      simp [has_fd]
    simpa [List.eraseP_cons, hc2] using h2

/-- The lists the program can hold are the lists with uniqueness. -/
theorem reachable_iff_uniq (M : Int) (l : List conn_node) : Reachable M l ↔ uniq l :=
  ⟨reachable_uniq, uniq_reachable M l⟩

/-! ## The claims -/

/-- C1 (uniqueness invariant). Starting from the empty list, after any finite sequence
of `clist_insert`, `clist_delete`, `clist_set_purpose`, `clist_get_purpose`,
`clist_get_flags`, `clist_fill_fdset` (with any probe, whatever it answers and however
its answers change from call to call) and `clist_next_set`, for every descriptor value
at most one node of the list has that `cn_fd`. -/
theorem C1_uniqueness_invariant (MSGP_ALL : Int) (l : List conn_node)
    (h : Reachable MSGP_ALL l) (d : Int) :
    l.countP (fun c => decide (c.cn_fd = d)) ≤ 1 :=
  (uniq_iff_countP l).1 (reachable_uniq h) d

/-- C1, at the list left by inserting 5, inserting 7, giving 7 a purpose, inserting 5
again and inserting 9. -/
theorem C1_uniqueness_invariant_witness :
    Reachable (-1)
        (clist_insert (clist_insert (clist_set_purpose (clist_insert
          (clist_insert [] 5 1).2 7 5).2 7 2).2 5 3).2 9 0).2 ∧
      (clist_insert (clist_insert (clist_set_purpose (clist_insert
          (clist_insert [] 5 1).2 7 5).2 7 2).2 5 3).2 9 0).2.countP
        (fun c => decide (c.cn_fd = 5)) ≤ 1 :=
  ⟨Reachable.insert 9 0 (Reachable.insert 5 3 (Reachable.set_purpose 7 2
      (Reachable.insert 7 5 (Reachable.insert 5 1 Reachable.init)))),
    C1_uniqueness_invariant (-1) _
      (Reachable.insert 9 0 (Reachable.insert 5 3 (Reachable.set_purpose 7 2
        (Reachable.insert 7 5 (Reachable.insert 5 1 Reachable.init))))) 5⟩

theorem filter_not_has_fd (l : List conn_node) (d : Int) :
    l.filter (fun c => !has_fd d c) = l.filter (fun c => decide (c.cn_fd ≠ d)) := by
  apply List.filter_congr
  intro c _
  simp [has_fd]

theorem insert_get_flags (l : List conn_node) (d f : Int) :
    (clist_get_flags (clist_insert l d f).2 d).1 = f := by
  rw [insert_list, get_flags_present (find_head d _ _ rfl)]

theorem insert_get_purpose (l : List conn_node) (d f : Int) :
    (clist_get_purpose (clist_insert l d f).2 d).1 = 0 := by
  rw [insert_list, get_purpose_present (find_head d _ _ rfl)]

/-- C2 (insert replaces). On a list with uniqueness, `clist_insert(d, f)` leaves the
entry `(d, f, purpose 0)` at the head, followed by the entries of the other descriptors,
unchanged and in their previous order; `clist_get_flags(d)` then returns `f` and
`clist_get_purpose(d)` returns `0`, whatever `d` carried before, in particular after
`insert(d, f1); set_purpose(d, p); insert(d, f)`. -/
theorem C2_insert_replaces (l : List conn_node) (h : uniq l) (d f : Int) :
    (clist_insert l d f).1 = 0 ∧
    (clist_insert l d f).2 =
      { cn_fd := d, cn_flags := f, cn_purpose := 0 } ::
        l.filter (fun c => decide (c.cn_fd ≠ d)) ∧
    (clist_get_flags (clist_insert l d f).2 d).1 = f ∧
    (clist_get_purpose (clist_insert l d f).2 d).1 = 0 ∧
    ∀ f1 p : Int,
      (clist_get_flags
        (clist_insert (clist_set_purpose (clist_insert l d f1).2 d p).2 d f).2 d).1 = f ∧
      (clist_get_purpose
        (clist_insert (clist_set_purpose (clist_insert l d f1).2 d p).2 d f).2 d).1 = 0 := by
  refine ⟨rfl, ?_, insert_get_flags l d f, insert_get_purpose l d f, fun f1 p =>
    ⟨insert_get_flags _ d f, insert_get_purpose _ d f⟩⟩
  rw [insert_list, uniq_eraseP_eq_filter h, filter_not_has_fd]

/-- C2, at the list `[(5, flags 1, purpose 3), (7, flags 5, purpose 2)]` with a new
insert of 7. -/
theorem C2_insert_replaces_witness :
    uniq [⟨5, 1, 3⟩, ⟨7, 5, 2⟩] ∧
    (clist_insert [⟨5, 1, 3⟩, ⟨7, 5, 2⟩] 7 4).2 = [⟨7, 4, 0⟩, ⟨5, 1, 3⟩] ∧
    (clist_get_flags (clist_insert [⟨5, 1, 3⟩, ⟨7, 5, 2⟩] 7 4).2 7).1 = 4 ∧
    (clist_get_purpose (clist_insert [⟨5, 1, 3⟩, ⟨7, 5, 2⟩] 7 4).2 7).1 = 0 :=
  ⟨by decide, (C2_insert_replaces [⟨5, 1, 3⟩, ⟨7, 5, 2⟩] (by decide) 7 4).2.1,
    (C2_insert_replaces [⟨5, 1, 3⟩, ⟨7, 5, 2⟩] (by decide) 7 4).2.2.1,
    (C2_insert_replaces [⟨5, 1, 3⟩, ⟨7, 5, 2⟩] (by decide) 7 4).2.2.2.1⟩

/-- With a probe that answers by descriptor alone, started from the empty set,
`clist_fill_fdset` returns the descriptors of the entries that pass the filter and are
not reported invalid, and of no others. -/
theorem fill_det_mem (M : Int) (p : Int → select_result) (l : List conn_node)
    (F P : Int) (r : fill_result Unit)
    (hr : clist_fill_fdset M (det_probe p) () l ∅ F P = some r) (x : Int) :
    x ∈ r.set ↔ ∃ c ∈ l, ¬ reports_invalid (p c.cn_fd) ∧ passes_filter M F P c ∧ c.cn_fd = x := by
  obtain ⟨-, hg, hall, hrem⟩ := fill_fdset_spec M (det_probe p) () l ∅ F P r hr
  constructor
  · intro hx
    rcases hg.2.1 x hx with h | ⟨c, hc, hpass, hfd, o, hgood⟩
    · exact absurd h (Finset.not_mem_empty x)
    · exact ⟨c, hc, by rw [hfd]; exact hgood, hpass, hfd⟩
  · rintro ⟨c, hc, hgood, hpass, rfl⟩
    have hmem : c ∈ r.conn_list := by
      by_contra hn
      obtain ⟨-, -, -, -, o, hbad⟩ := hrem c hc hn
      exact hgood hbad
    exact (hall c hmem hpass).1

/-- The value returned by `clist_fill_fdset` started from the empty set is the greatest
of `-1` and the members of the set it built. -/
theorem fill_max_spec {σ : Type} (M : Int) (probe : σ → Int → select_result × σ)
    (os : σ) (l : List conn_node) (F P : Int) (r : fill_result σ)
    (hr : clist_fill_fdset M probe os l ∅ F P = some r) :
    (r.max = -1 ∨ r.max ∈ r.set) ∧ (∀ x ∈ r.set, x ≤ r.max) ∧ -1 ≤ r.max := by
  obtain ⟨-, hg, -, -⟩ := fill_fdset_spec M probe os l ∅ F P r hr
  refine ⟨hg.2.2.2.1, ?_, hg.2.2.1⟩
  intro x hx
  rcases hg.2.2.2.2 x hx with h | h
  · exact absurd h (Finset.not_mem_empty x)
  · exact h

/-- A descriptor without an entry that is not in the caller's set is not in the set
after `clist_fill_fdset`, whatever the probe answers. -/
theorem fill_not_mem_of_absent {σ : Type} (M : Int) (probe : σ → Int → select_result × σ)
    (os : σ) (l : List conn_node) (set : Finset Int) (F P : Int) (r : fill_result σ)
    (hr : clist_fill_fdset M probe os l set F P = some r) {d : Int}
    (habs : ¬ registered l d) (hd : d ∉ set) : d ∉ r.set ∧ ¬ registered r.conn_list d := by
  obtain ⟨hsub, hg, -, -⟩ := fill_fdset_spec M probe os l set F P r hr
  refine ⟨?_, fun h => habs (registered_of_sublist hsub h)⟩
  intro hx
  rcases hg.2.1 d hx with h | ⟨c, hc, -, hfd, -⟩
  · exact hd h
  · exact habs ⟨c, hc, hfd⟩

/-- The caller's set has no part in the control flow of the `for` loop. -/
theorem fill_scan_frame {σ : Type} (M : Int) (probe : σ → Int → select_result × σ)
    (F P : Int) (head : List conn_node) (S0 : Finset Int) :
    ∀ (rem : List conn_node) (set : Finset Int) (max : Int) (os : σ) (ok : Bool),
      fill_scan M probe F P head rem (S0 ∪ set) max os ok =
        (fill_scan M probe F P head rem set max os ok).with_more S0 := by
  intro rem
  induction rem with
  | nil => intro set max os ok; rfl
  | cons c rest ih =>
    intro set max os ok
    unfold fill_scan
    by_cases hf : flags_skip F c = true
    · rw [if_pos hf, if_pos hf]; exact ih _ _ _ _
    · rw [if_neg hf, if_neg hf]
      by_cases hp : purpose_skip M P c = true
      · rw [if_pos hp, if_pos hp]; exact ih _ _ _ _
      · rw [if_neg hp, if_neg hp]
        simp only []
        by_cases hb : bad_descriptor (probe os c.cn_fd).1 = true
        · rw [if_pos hb, if_pos hb]; rfl
        · rw [if_neg hb, if_neg hb, ← Finset.union_insert]; exact ih _ _ _ _

theorem fill_top_frame {σ : Type} (M : Int) (probe : σ → Int → select_result × σ)
    (F P : Int) (S0 : Finset Int) :
    ∀ (fuel : Nat) (head : List conn_node) (set : Finset Int) (max : Int) (os : σ)
      (ok : Bool),
      fill_top M probe F P fuel head (S0 ∪ set) max os ok =
        (fill_top M probe F P fuel head set max os ok).map (fill_result.with_more S0) := by
  intro fuel
  induction fuel with
  | zero => intro head set max os ok; rfl
  | succ n ih =>
    intro head set max os ok
    unfold fill_top
    rw [fill_scan_frame]
    cases fill_scan M probe F P head head set max os ok with
    | done set1 max1 os1 ok1 => rfl
    | top l1 set1 max1 os1 ok1 => exact ih _ _ _ _ _

/-- The caller's set is only added to: the call from `S0` does what the call from the
empty set does, and returns the union of `S0` and the set built from the empty set. -/
theorem fill_fdset_frame {σ : Type} (M : Int) (probe : σ → Int → select_result × σ)
    (os : σ) (l : List conn_node) (S0 : Finset Int) (F P : Int) :
    clist_fill_fdset M probe os l S0 F P =
      (clist_fill_fdset M probe os l ∅ F P).map (fill_result.with_more S0) := by
  unfold clist_fill_fdset
  rw [← fill_top_frame, Finset.union_empty]

/-! ## The drainer -/

theorem next_set_skip {c : conn_node} {set : Finset Int} (h : c.cn_fd ∉ set)
    (rest : List conn_node) : clist_next_set (c :: rest) set = clist_next_set rest set := by
  rw [clist_next_set, if_neg h]

theorem next_set_hit {c : conn_node} {set : Finset Int} (h : c.cn_fd ∈ set)
    (rest : List conn_node) :
    clist_next_set (c :: rest) set = (c.cn_fd, set.erase c.cn_fd) := by
  rw [clist_next_set, if_pos h]

theorem next_set_none {l : List conn_node} {set : Finset Int}
    (h : ∀ c ∈ l, c.cn_fd ∉ set) : clist_next_set l set = (-1, set) := by
  induction l with
  | nil => rfl
  | cons c rest ih =>
    rw [next_set_skip (h c (List.mem_cons_self _ _))]
    exact ih (fun a ha => h a (List.mem_cons_of_mem _ ha))

theorem next_set_first {l1 l2 : List conn_node} {c : conn_node} {set : Finset Int}
    (h1 : ∀ a ∈ l1, a.cn_fd ∉ set) (hc : c.cn_fd ∈ set) :
    clist_next_set (l1 ++ c :: l2) set = (c.cn_fd, set.erase c.cn_fd) := by
  induction l1 with
  | nil => exact next_set_hit hc l2
  | cons a rest ih =>
    rw [List.cons_append, next_set_skip (h1 a (List.mem_cons_self _ _))]
    exact ih (fun b hb => h1 b (List.mem_cons_of_mem _ hb))

theorem next_set_subset (l : List conn_node) (set : Finset Int) :
    (clist_next_set l set).2 ⊆ set := by
  induction l with
  | nil => exact Finset.Subset.refl _
  | cons c rest ih =>
    by_cases h : c.cn_fd ∈ set
    · rw [next_set_hit h]
      exact Finset.erase_subset _ _
    · rw [next_set_skip h]
      exact ih

theorem drain_skip {c : conn_node} (rest : List conn_node) :
    ∀ (n : Nat) (set : Finset Int), c.cn_fd ∉ set →
      drain (c :: rest) n set = drain rest n set := by
  intro n
  induction n with
  | zero => intro set _; rfl
  | succ n ih =>
    intro set h
    simp only [drain]
    rw [next_set_skip h]
    rw [ih _ (fun hm => h (next_set_subset rest set hm))]

theorem drain_nil : ∀ (n : Nat) (set : Finset Int),
    drain [] n set = (List.replicate n (-1), set) := by
  intro n
  induction n with
  | zero => intro set; rfl
  | succ n ih =>
    intro set
    simp only [drain, clist_next_set, ih, List.replicate_succ]

/-- On a list with uniqueness, the drain loop returns the registered members of the set
in list order, then `-1` for ever, and leaves the members that are not registered. -/
theorem drain_spec : ∀ (l : List conn_node), uniq l → ∀ (set : Finset Int) (n : Nat),
    drain l (((l.map conn_node.cn_fd).filter (fun d => decide (d ∈ set))).length + n) set =
      ((l.map conn_node.cn_fd).filter (fun d => decide (d ∈ set)) ++ List.replicate n (-1),
        set \ (l.map conn_node.cn_fd).toFinset) := by
  intro l
  induction l with
  | nil =>
    intro _ set n
    simp [drain_nil]
  | cons c rest ih =>
    intro hu set n
    obtain ⟨hc, hr⟩ := uniq_cons.1 hu
    by_cases h : c.cn_fd ∈ set
    · have hfilter : (rest.map conn_node.cn_fd).filter (fun d => decide (d ∈ set.erase c.cn_fd))
          = (rest.map conn_node.cn_fd).filter (fun d => decide (d ∈ set)) := by
        apply List.filter_congr
        intro d hd
        have hne : d ≠ c.cn_fd := by
          rintro rfl
          obtain ⟨a, ha, hfa⟩ := List.mem_map.1 hd
          exact hc ⟨a, ha, hfa⟩
        simp [Finset.mem_erase, hne]
      have hlen : ((List.map conn_node.cn_fd (c :: rest)).filter
          (fun d => decide (d ∈ set))).length + n =
          (((rest.map conn_node.cn_fd).filter
            (fun d => decide (d ∈ set.erase c.cn_fd))).length + n) + 1 := by
        rw [hfilter]
        simp [List.filter_cons, h]
        omega
      rw [hlen]
      simp only [drain]
      rw [next_set_hit h, drain_skip rest _ _ (Finset.not_mem_erase _ _), ih hr, hfilter]
      simp only [List.map_cons, List.filter_cons, h, decide_True, if_true, List.cons_append,
        List.toFinset_cons]
      congr 1
      ext x
      simp only [Finset.mem_sdiff, Finset.mem_erase, Finset.mem_insert]
      tauto
    · have hfilter : (List.map conn_node.cn_fd (c :: rest)).filter (fun d => decide (d ∈ set))
          = (rest.map conn_node.cn_fd).filter (fun d => decide (d ∈ set)) := by
        simp [List.filter_cons, h]
      rw [hfilter, drain_skip rest _ _ h, ih hr]
      congr 1
      ext x
      simp only [List.map_cons, List.toFinset_cons, Finset.mem_sdiff, Finset.mem_insert]
      constructor
      · rintro ⟨hx, hn⟩
        refine ⟨hx, ?_⟩
        rintro (rfl | hm)
        · exact h hx
        · exact hn hm
      · rintro ⟨hx, hn⟩
        exact ⟨hx, fun hm => hn (Or.inr hm)⟩

theorem filter_mem_card {l : List Int} (h : l.Nodup) (set : Finset Int) :
    (l.filter (fun d => decide (d ∈ set))).length = (set ∩ l.toFinset).card := by
  rw [← List.toFinset_card_of_nodup (h.filter _)]
  congr 1
  ext x
  simp only [List.mem_toFinset, List.mem_filter, decide_eq_true_eq, Finset.mem_inter]
  tauto

/-! ## The purpose accessors -/

theorem set_get_purpose {l : List conn_node} {d : Int} (h : registered l d) (p : Int) :
    (clist_set_purpose l d p).1 = 0 ∧
      (clist_get_purpose (clist_set_purpose l d p).2 d).1 = p := by
  obtain ⟨n, hn, -, hfd⟩ := find_has_fd_some h
  rw [set_purpose_present hn]
  refine ⟨rfl, ?_⟩
  show (clist_get_purpose ({ n with cn_purpose := p } :: l.eraseP (has_fd d)) d).1 = p
  rw [get_purpose_present (find_head d { n with cn_purpose := p } _ hfd)]

theorem registered_set_purpose (l : List conn_node) (d p x : Int) :
    registered (clist_set_purpose l d p).2 x ↔ registered l x := by
  by_cases h : registered l d
  · obtain ⟨n, hn, -, -⟩ := find_has_fd_some h
    rw [set_purpose_present hn]
    have hperm := find_perm hn
    constructor
    · rintro ⟨a, ha, hfa⟩
      rcases List.mem_cons.1 ha with rfl | ha
      · exact ⟨n, hperm.subset (List.mem_cons_self _ _), hfa⟩
      · exact ⟨a, hperm.subset (List.mem_cons_of_mem _ ha), hfa⟩
    · rintro ⟨a, ha, hfa⟩
      rcases List.mem_cons.1 (hperm.symm.subset ha) with rfl | ha
      · exact ⟨_, List.mem_cons_self _ _, hfa⟩
      · exact ⟨a, List.mem_cons_of_mem _ ha, hfa⟩
  · rw [set_purpose_absent h]

/-- C9 (purpose round trip). For every list, every descriptor `d` that has an entry and
every purpose `p`, `clist_set_purpose(d, p)` returns `0` and a `clist_get_purpose(d)`
that follows returns `p`; for a descriptor without an entry `clist_get_purpose` returns
`-1`. After inserting 1, 2, 3: `set_purpose(2, 7)` then `get_purpose(2)` gives 7, and
`get_purpose(99)` gives `-1`. -/
theorem C9_purpose_round_trip :
    (∀ (l : List conn_node) (d p : Int), registered l d →
      (clist_set_purpose l d p).1 = 0 ∧
      (clist_get_purpose (clist_set_purpose l d p).2 d).1 = p) ∧
    (∀ (l : List conn_node) (d : Int), ¬ registered l d → (clist_get_purpose l d).1 = -1) ∧
    (∀ f1 f2 f3 : Int,
      (clist_set_purpose
        (clist_insert (clist_insert (clist_insert [] 1 f1).2 2 f2).2 3 f3).2 2 7).1 = 0 ∧
      (clist_get_purpose (clist_set_purpose
        (clist_insert (clist_insert (clist_insert [] 1 f1).2 2 f2).2 3 f3).2 2 7).2 2).1 = 7 ∧
      (clist_get_purpose (clist_set_purpose
        (clist_insert (clist_insert (clist_insert [] 1 f1).2 2 f2).2 3 f3).2 2 7).2 99).1
        = -1) := by
  refine ⟨fun l d p h => set_get_purpose h p, fun l d h => by rw [get_purpose_absent h], ?_⟩
  intro f1 f2 f3
  have hl : (clist_insert (clist_insert (clist_insert [] 1 f1).2 2 f2).2 3 f3).2 =
      [⟨3, f3, 0⟩, ⟨2, f2, 0⟩, ⟨1, f1, 0⟩] := by
    simp [insert_list, List.eraseP_cons, has_fd]
  rw [hl]
  have h2 : registered [(⟨3, f3, 0⟩ : conn_node), ⟨2, f2, 0⟩, ⟨1, f1, 0⟩] 2 :=
    ⟨⟨2, f2, 0⟩, by simp, rfl⟩
  have h99 : ¬ registered [(⟨3, f3, 0⟩ : conn_node), ⟨2, f2, 0⟩, ⟨1, f1, 0⟩] 99 := by
    simp [registered]
  refine ⟨(set_get_purpose h2 7).1, (set_get_purpose h2 7).2, ?_⟩
  rw [get_purpose_absent (fun h => h99 ((registered_set_purpose _ 2 7 99).1 h))]

/-- C9, at the list with descriptors 3, 2, 1. -/
theorem C9_purpose_round_trip_witness :
    registered [⟨3, 0, 0⟩, ⟨2, 0, 0⟩, ⟨1, 0, 0⟩] 2 ∧
    (clist_set_purpose [⟨3, 0, 0⟩, ⟨2, 0, 0⟩, ⟨1, 0, 0⟩] 2 7).1 = 0 ∧
    (clist_get_purpose (clist_set_purpose [⟨3, 0, 0⟩, ⟨2, 0, 0⟩, ⟨1, 0, 0⟩] 2 7).2 2).1 = 7 ∧
    ¬ registered [⟨3, 0, 0⟩, ⟨2, 0, 0⟩, ⟨1, 0, 0⟩] 99 ∧
    (clist_get_purpose [⟨3, 0, 0⟩, ⟨2, 0, 0⟩, ⟨1, 0, 0⟩] 99).1 = -1 :=
  ⟨by decide,
    (C9_purpose_round_trip.1 [⟨3, 0, 0⟩, ⟨2, 0, 0⟩, ⟨1, 0, 0⟩] 2 7 (by decide)).1,
    (C9_purpose_round_trip.1 [⟨3, 0, 0⟩, ⟨2, 0, 0⟩, ⟨1, 0, 0⟩] 2 7 (by decide)).2,
    by decide,
    C9_purpose_round_trip.2.1 [⟨3, 0, 0⟩, ⟨2, 0, 0⟩, ⟨1, 0, 0⟩] 99 (by decide)⟩

/-- C10 as stated fails. After `clist_insert(3, 0)` and `clist_set_purpose(3, -1)`, a
list the public operations reach, descriptor 3 has an entry and 99 has none, and
`clist_get_purpose` returns `-1` for both. -/
theorem C10_not_found_distinct_counterexample :
    Reachable (-1) (clist_set_purpose (clist_insert [] 3 0).2 3 (-1)).2 ∧
    registered (clist_set_purpose (clist_insert [] 3 0).2 3 (-1)).2 3 ∧
    ¬ registered (clist_set_purpose (clist_insert [] 3 0).2 3 (-1)).2 99 ∧
    (clist_get_purpose (clist_set_purpose (clist_insert [] 3 0).2 3 (-1)).2 3).1 =
      (clist_get_purpose (clist_set_purpose (clist_insert [] 3 0).2 3 (-1)).2 99).1 :=
  ⟨Reachable.set_purpose 3 (-1) (Reachable.insert 3 0 Reachable.init),
    by decide, by decide, by decide⟩

/-- C10 (not-found and `clist_get_purpose`), amended. On every list the public
operations reach, `clist_get_purpose(d)` returns the stored purpose when `d` has an
entry, also right after `clist_set_purpose(d, p)` stored `p`, and `-1` when `d` has
none; the result for a descriptor with an entry differs from the result for a descriptor
without one exactly when the stored purpose is not `-1`. -/
theorem C10_not_found_distinct (MSGP_ALL : Int) (l : List conn_node)
    (h : Reachable MSGP_ALL l) (c : conn_node) (hc : c ∈ l) (d2 : Int)
    (habs : ¬ registered l d2) :
    (clist_get_purpose l c.cn_fd).1 = c.cn_purpose ∧
    (clist_get_purpose l d2).1 = -1 ∧
    ((clist_get_purpose l c.cn_fd).1 ≠ (clist_get_purpose l d2).1 ↔ c.cn_purpose ≠ -1) ∧
    ∀ p : Int,
      (clist_get_purpose (clist_set_purpose l c.cn_fd p).2 c.cn_fd).1 = p ∧
      (clist_get_purpose (clist_set_purpose l c.cn_fd p).2 d2).1 = -1 ∧
      ((clist_get_purpose (clist_set_purpose l c.cn_fd p).2 c.cn_fd).1 ≠
        (clist_get_purpose (clist_set_purpose l c.cn_fd p).2 d2).1 ↔ p ≠ -1) := by
  have e1 : (clist_get_purpose l c.cn_fd).1 = c.cn_purpose := by
    rw [get_purpose_present (find_of_mem (reachable_uniq h) hc)]
  have e2 : (clist_get_purpose l d2).1 = -1 := by rw [get_purpose_absent habs]
  refine ⟨e1, e2, by rw [e1, e2], ?_⟩
  intro p
  have e3 := (@set_get_purpose l c.cn_fd ⟨c, hc, rfl⟩ p).2
  have e4 : (clist_get_purpose (clist_set_purpose l c.cn_fd p).2 d2).1 = -1 := by
    rw [get_purpose_absent (fun hr => habs ((registered_set_purpose l c.cn_fd p d2).1 hr))]
  exact ⟨e3, e4, by rw [e3, e4]⟩

/-- C10 amended, at the list left by `clist_insert(3, 0)` and `clist_set_purpose(3, 4)`,
with the absent descriptor 99. -/
theorem C10_not_found_distinct_witness :
    Reachable (-1) (clist_set_purpose (clist_insert [] 3 0).2 3 4).2 ∧
    (⟨3, 0, 4⟩ : conn_node) ∈ (clist_set_purpose (clist_insert [] 3 0).2 3 4).2 ∧
    ¬ registered (clist_set_purpose (clist_insert [] 3 0).2 3 4).2 99 ∧
    (clist_get_purpose (clist_set_purpose (clist_insert [] 3 0).2 3 4).2 3).1 = 4 ∧
    (clist_get_purpose (clist_set_purpose (clist_insert [] 3 0).2 3 4).2 99).1 = -1 :=
  ⟨Reachable.set_purpose 3 4 (Reachable.insert 3 0 Reachable.init), by decide, by decide,
    (C10_not_found_distinct (-1) (clist_set_purpose (clist_insert [] 3 0).2 3 4).2
      (Reachable.set_purpose 3 4 (Reachable.insert 3 0 Reachable.init)) ⟨3, 0, 4⟩
      (by decide) 99 (by decide)).1,
    (C10_not_found_distinct (-1) (clist_set_purpose (clist_insert [] 3 0).2 3 4).2
      (Reachable.set_purpose 3 4 (Reachable.insert 3 0 Reachable.init)) ⟨3, 0, 4⟩
      (by decide) 99 (by decide)).2.1⟩

/-! ## Delete, flags and recency -/

theorem find_first {l1 l2 : List conn_node} {c : conn_node} {d : Int}
    (h1 : ∀ a ∈ l1, a.cn_fd ≠ d) (hc : c.cn_fd = d) :
    (l1 ++ c :: l2).find? (has_fd d) = some c ∧
      (l1 ++ c :: l2).eraseP (has_fd d) = l1 ++ l2 := by
  induction l1 with
  | nil => simp [has_fd, hc]
  | cons a rest ih =>
    have ha : has_fd d a = false := by
      simpa [has_fd] using h1 a (List.mem_cons_self _ _)
    obtain ⟨e1, e2⟩ := ih (fun b hb => h1 b (List.mem_cons_of_mem _ hb))
    constructor
    · rw [List.cons_append, List.find?_cons, ha]
      exact e1
    · rw [List.cons_append, List.eraseP_cons, ha]
      simp only [cond_false, List.cons_append]
      rw [e2]

/-- C11 (delete reports found-ness). On a list with uniqueness, `clist_delete(d)`
returns `0` if and only if `d` had an entry, and `1` otherwise; afterwards `d` has no
entry and the list is the old one without the entry of `d`, the other entries unchanged
and in their order; when `d` had no entry the list is left exactly as it was. After
`clist_insert(d, f)`, a first `clist_delete(d)` returns `0` and a second returns `1`
(for instance with `d = 5`). -/
theorem C11_delete_reports_found (l : List conn_node) (hu : uniq l) (d : Int) :
    ((clist_delete l d).1 = 0 ↔ registered l d) ∧
    ((clist_delete l d).1 = 1 ↔ ¬ registered l d) ∧
    ¬ registered (clist_delete l d).2 d ∧
    (clist_delete l d).2 = l.filter (fun c => decide (c.cn_fd ≠ d)) ∧
    (¬ registered l d → clist_delete l d = (1, l)) ∧
    (∀ f : Int, (clist_delete (clist_insert l d f).2 d).1 = 0 ∧
      (clist_delete (clist_delete (clist_insert l d f).2 d).2 d).1 = 1) := by
  have hrv : ∀ (l0 : List conn_node), (clist_delete l0 d).1 = if registered l0 d then 0 else 1 :=
    fun l0 => delete_nt_rv l0 d
  have hlist : ∀ (l0 : List conn_node), (clist_delete l0 d).2 = l0.eraseP (has_fd d) :=
    fun l0 => delete_nt_list l0 d
  refine ⟨?_, ?_, ?_, ?_, ?_, ?_⟩
  · rw [hrv]
    by_cases h : registered l d <;> simp [h]
  · rw [hrv]
    by_cases h : registered l d <;> simp [h]
  · rw [hlist]
    exact not_registered_eraseP hu d
  · rw [hlist, uniq_eraseP_eq_filter hu, filter_not_has_fd]
  · intro h
    apply Prod.ext
    · rw [hrv, if_neg h]
    · rw [hlist, List.eraseP_of_forall_not]
      intro a ha hfd
      exact h ⟨a, ha, by simpa [has_fd] using hfd⟩
  · intro f
    have hreg : registered (clist_insert l d f).2 d := by
      rw [insert_list]
      exact ⟨_, List.mem_cons_self _ _, rfl⟩
    have hgone : ¬ registered (clist_delete (clist_insert l d f).2 d).2 d := by
      rw [hlist]
      exact not_registered_eraseP (uniq_insert hu d f) d
    exact ⟨by rw [hrv, if_pos hreg], by rw [hrv, if_neg hgone]⟩

/-- C11, at the empty list and descriptor 5: insert 5, delete 5 (found), delete 5 again
(not found). -/
theorem C11_delete_reports_found_witness :
    uniq [] ∧
    (clist_delete (clist_insert [] 5 1).2 5).1 = 0 ∧
    (clist_delete (clist_delete (clist_insert [] 5 1).2 5).2 5).1 = 1 :=
  ⟨by decide, (C11_delete_reports_found [] (by decide) 5).2.2.2.2.2 1⟩

/-- C12 (result of `clist_get_flags`). On a list with uniqueness, `clist_get_flags(d)`
returns the stored flags of the entry of `d` when there is one and `0` when there is
none; so the list holding `d` with flags `0` and the empty list give the same value. -/
theorem C12_get_flags_result (l : List conn_node) (hu : uniq l) (d : Int) :
    (∀ c ∈ l, c.cn_fd = d → (clist_get_flags l d).1 = c.cn_flags) ∧
    (¬ registered l d → (clist_get_flags l d).1 = 0) ∧
    (uniq [(⟨d, 0, 0⟩ : conn_node)] ∧ uniq ([] : List conn_node) ∧
      registered [(⟨d, 0, 0⟩ : conn_node)] d ∧ ¬ registered [] d ∧
      (clist_get_flags [⟨d, 0, 0⟩] d).1 = (clist_get_flags [] d).1) := by
  refine ⟨?_, ?_, ?_, List.nodup_nil, ⟨_, List.mem_cons_self _ _, rfl⟩, ?_, ?_⟩
  · intro c hc hfd
    subst hfd
    rw [get_flags_present (find_of_mem hu hc)]
  · intro h
    rw [get_flags_absent h]
  · simp [uniq]
  · simp [registered]
  · rw [get_flags_present (find_head d ⟨d, 0, 0⟩ [] rfl)]
    rfl

/-- C12, at the list `[(5, flags 1), (7, flags 0)]`: 5 gives its flags, 7 and the absent
9 both give `0`. -/
theorem C12_get_flags_result_witness :
    uniq [⟨5, 1, 0⟩, ⟨7, 0, 0⟩] ∧
    (clist_get_flags [⟨5, 1, 0⟩, ⟨7, 0, 0⟩] 5).1 = 1 ∧
    ¬ registered [⟨5, 1, 0⟩, ⟨7, 0, 0⟩] 9 ∧
    (clist_get_flags [⟨5, 1, 0⟩, ⟨7, 0, 0⟩] 9).1 = 0 :=
  ⟨by decide,
    (C12_get_flags_result [⟨5, 1, 0⟩, ⟨7, 0, 0⟩] (by decide) 5).1 ⟨5, 1, 0⟩ (by decide) rfl,
    by decide,
    (C12_get_flags_result [⟨5, 1, 0⟩, ⟨7, 0, 0⟩] (by decide) 9).2.1 (by decide)⟩

theorem first_entry {l : List conn_node} {d : Int} (h : registered l d) :
    ∃ (l1 : List conn_node) (c : conn_node) (l2 : List conn_node),
      l = l1 ++ c :: l2 ∧ (∀ a ∈ l1, a.cn_fd ≠ d) ∧ c.cn_fd = d := by
  induction l with
  | nil =>
    obtain ⟨a, ha, -⟩ := h
    exact absurd ha (List.not_mem_nil a)
  | cons b rest ih =>
    by_cases hb : b.cn_fd = d
    · exact ⟨[], b, rest, rfl, fun a ha => absurd ha (List.not_mem_nil a), hb⟩
    · obtain ⟨a, ha, hfa⟩ := h
      rcases List.mem_cons.1 ha with rfl | ha
      · exact absurd hfa hb
      · obtain ⟨l1, c, l2, e, h1, hc⟩ := ih ⟨a, ha, hfa⟩
        refine ⟨b :: l1, c, l2, by rw [e]; rfl, ?_, hc⟩
        intro x hx
        rcases List.mem_cons.1 hx with rfl | hx
        · exact hb
        · exact h1 x hx

theorem lookup_promotes {l1 l2 : List conn_node} {c : conn_node} {d : Int}
    (h1 : ∀ a ∈ l1, a.cn_fd ≠ d) (hc : c.cn_fd = d) (p : Int) :
    clist_get_flags (l1 ++ c :: l2) d = (c.cn_flags, c :: (l1 ++ l2)) ∧
    clist_get_purpose (l1 ++ c :: l2) d = (c.cn_purpose, c :: (l1 ++ l2)) ∧
    clist_set_purpose (l1 ++ c :: l2) d p = (0, { c with cn_purpose := p } :: (l1 ++ l2)) := by
  obtain ⟨e1, e2⟩ := @find_first l1 l2 c d h1 hc
  refine ⟨?_, ?_, ?_⟩
  · rw [get_flags_present e1, e2]
  · rw [get_purpose_present e1, e2]
  · rw [set_purpose_present e1, e2]

/-- C13 (recency promotion). For every list and every descriptor `d` that has an entry,
with `c` the entry of `d` (the first node carrying `d`), `l1` the nodes before it and
`l2` the nodes after it, each of `clist_get_flags(d)`, `clist_get_purpose(d)` and
`clist_set_purpose(d, p)` leaves `c` (with its new purpose in the last case) at the
head, followed by `l1` and `l2` in their previous order. After inserting distinct `A`,
`B`, `C` in this order and looking up `A`, the list order is `A`, `C`, `B`. -/
theorem C13_recency_promotion :
    (∀ (l : List conn_node) (d p : Int), registered l d →
      ∃ (l1 : List conn_node) (c : conn_node) (l2 : List conn_node),
        l = l1 ++ c :: l2 ∧ (∀ a ∈ l1, a.cn_fd ≠ d) ∧ c.cn_fd = d ∧
        (clist_get_flags l d).2 = c :: (l1 ++ l2) ∧
        (clist_get_purpose l d).2 = c :: (l1 ++ l2) ∧
        (clist_set_purpose l d p).2 = { c with cn_purpose := p } :: (l1 ++ l2)) ∧
    (∀ A B C fa fb fc p : Int, A ≠ B → A ≠ C → B ≠ C →
      (clist_insert (clist_insert (clist_insert [] A fa).2 B fb).2 C fc).2 =
        [⟨C, fc, 0⟩, ⟨B, fb, 0⟩, ⟨A, fa, 0⟩] ∧
      (clist_get_flags (clist_insert (clist_insert (clist_insert [] A fa).2 B fb).2 C fc).2
        A).2 = [⟨A, fa, 0⟩, ⟨C, fc, 0⟩, ⟨B, fb, 0⟩] ∧
      (clist_get_purpose (clist_insert (clist_insert (clist_insert [] A fa).2 B fb).2 C fc).2
        A).2 = [⟨A, fa, 0⟩, ⟨C, fc, 0⟩, ⟨B, fb, 0⟩] ∧
      (clist_set_purpose (clist_insert (clist_insert (clist_insert [] A fa).2 B fb).2 C fc).2
        A p).2 = [⟨A, fa, p⟩, ⟨C, fc, 0⟩, ⟨B, fb, 0⟩]) := by
  constructor
  · intro l d p h
    obtain ⟨l1, c, l2, e, h1, hc⟩ := first_entry h
    obtain ⟨e1, e2, e3⟩ := @lookup_promotes l1 l2 c d h1 hc p
    subst e
    exact ⟨l1, c, l2, rfl, h1, hc, by rw [e1], by rw [e2], by rw [e3]⟩
  · intro A B C fa fb fc p hAB hAC hBC
    have hl : (clist_insert (clist_insert (clist_insert [] A fa).2 B fb).2 C fc).2 =
        [⟨C, fc, 0⟩, ⟨B, fb, 0⟩, ⟨A, fa, 0⟩] := by
      simp [insert_list, List.eraseP_cons, has_fd, hAB, hAC, hBC]
    have h1 : ∀ a ∈ [(⟨C, fc, 0⟩ : conn_node), ⟨B, fb, 0⟩], a.cn_fd ≠ A := by
      intro a ha
      simp only [List.mem_cons, List.mem_singleton, List.not_mem_nil, or_false] at ha
      rcases ha with rfl | rfl
      · exact fun h => hAC h.symm
      · exact fun h => hAB h.symm
    obtain ⟨e1, e2, e3⟩ :=
      @lookup_promotes [⟨C, fc, 0⟩, ⟨B, fb, 0⟩] [] ⟨A, fa, 0⟩ A h1 rfl p
    refine ⟨hl, ?_, ?_, ?_⟩
    · rw [hl]; exact congrArg Prod.snd e1
    · rw [hl]; exact congrArg Prod.snd e2
    · rw [hl]; exact congrArg Prod.snd e3

/-- C13, at the descriptors 1, 2, 3 inserted in this order, and at the list with
descriptors 3, 2, 1 for the lookup of 1. -/
theorem C13_recency_promotion_witness :
    registered [⟨3, 0, 0⟩, ⟨2, 0, 0⟩, ⟨1, 0, 0⟩] 1 ∧
    ((1 : Int) ≠ 2 ∧ (1 : Int) ≠ 3 ∧ (2 : Int) ≠ 3) ∧
    (clist_get_flags (clist_insert (clist_insert (clist_insert [] 1 0).2 2 0).2 3 0).2 1).2 =
      [⟨1, 0, 0⟩, ⟨3, 0, 0⟩, ⟨2, 0, 0⟩] ∧
    ∃ (l1 : List conn_node) (c : conn_node) (l2 : List conn_node),
      [(⟨3, 0, 0⟩ : conn_node), ⟨2, 0, 0⟩, ⟨1, 0, 0⟩] = l1 ++ c :: l2 ∧
      (clist_get_purpose [⟨3, 0, 0⟩, ⟨2, 0, 0⟩, ⟨1, 0, 0⟩] 1).2 = c :: (l1 ++ l2) :=
  ⟨by decide, by decide,
    (C13_recency_promotion.2 1 2 3 0 0 0 0 (by decide) (by decide) (by decide)).2.1,
    (C13_recency_promotion.1 [⟨3, 0, 0⟩, ⟨2, 0, 0⟩, ⟨1, 0, 0⟩] 1 0 (by decide)).imp
      (fun _ h => h.imp (fun _ h2 => h2.imp (fun _ h3 => ⟨h3.1, h3.2.2.2.2.1⟩)))⟩

/-! ## The drainer reads only -/

theorem next_set_scan_spec (head : List conn_node) :
    ∀ (rem : List conn_node) (set : Finset Int),
      next_set_scan head rem set =
        ((clist_next_set rem set).1, (clist_next_set rem set).2, head) := by
  intro rem
  induction rem with
  | nil => intro set; rfl
  | cons c rest ih =>
    intro set
    by_cases h : c.cn_fd ∈ set
    · rw [next_set_scan, if_pos h, next_set_hit h]
    · rw [next_set_scan, if_neg h, next_set_skip h]
      exact ih set

/-- C14 (the drainer only reads the registry). For every list and every set,
`clist_next_set` leaves the list exactly as it was, the same nodes with the same flags
and purposes in the same order, whether it returns a descriptor or `-1`; its return
value and the set it leaves are those of the traversal. In particular it does not
promote: after inserting 1, 2, 3 a call on `{1}` returns 1 and leaves the order 3, 2, 1,
whereas `clist_get_flags(1)` leaves 1, 3, 2. -/
theorem C14_drainer_only_reads (l : List conn_node) (S : Finset Int) :
    (clist_next_set_state l S).2.2 = l ∧
    (clist_next_set_state l S).1 = (clist_next_set l S).1 ∧
    (clist_next_set_state l S).2.1 = (clist_next_set l S).2 ∧
    (clist_next_set_state [⟨3, 0, 0⟩, ⟨2, 0, 0⟩, ⟨1, 0, 0⟩] {1} =
        (1, ∅, [⟨3, 0, 0⟩, ⟨2, 0, 0⟩, ⟨1, 0, 0⟩]) ∧
      (clist_get_flags [⟨3, 0, 0⟩, ⟨2, 0, 0⟩, ⟨1, 0, 0⟩] 1).2 =
        [⟨1, 0, 0⟩, ⟨3, 0, 0⟩, ⟨2, 0, 0⟩]) := by
  unfold clist_next_set_state
  rw [next_set_scan_spec]
  exact ⟨rfl, rfl, rfl, by decide, by decide⟩

/-! ## Termination of the scan -/

theorem fill_top_restarts {σ : Type} (M : Int) (probe : σ → Int → select_result × σ)
    (F P : Int) :
    ∀ (fuel : Nat) (head : List conn_node) (set : Finset Int) (max : Int) (os : σ)
      (ok : Bool),
      head.length < fuel →
      ∃ r n, fill_top M probe F P fuel head set max os ok = some r ∧
        fill_restarts M probe F P fuel head set max os ok = some n ∧
        n + r.conn_list.length = head.length := by
  intro fuel
  induction fuel with
  | zero =>
    intro head set max os ok h
    exact absurd h (Nat.not_lt_zero _)
  | succ k ih =>
    intro head set max os ok h
    unfold fill_top fill_restarts
    cases hs : fill_scan M probe F P head head set max os ok with
    | done set1 max1 os1 ok1 => exact ⟨_, 0, rfl, rfl, Nat.zero_add _⟩
    | top l1 set1 max1 os1 ok1 =>
      simp only []
      obtain ⟨-, a, ha, -, -, hl1⟩ :=
        fill_scan_top M probe F P head head set max os ok l1 set1 max1 os1 ok1 hs
      have hlen := List.length_eraseP_of_mem ha (show has_fd a.cn_fd a = true by simp [has_fd])
      have hpos : 0 < head.length := List.length_pos_of_mem ha
      subst hl1
      obtain ⟨r, n, hr, hn, hsum⟩ :=
        ih (head.eraseP (has_fd a.cn_fd)) set1 max1 os1 ok1 (by omega)
      refine ⟨r, n + 1, hr, ?_, by omega⟩
      rw [hn]
      rfl

/-- More runs of the loop than needed change nothing. -/
theorem fill_top_fuel {σ : Type} (M : Int) (probe : σ → Int → select_result × σ)
    (F P : Int) :
    ∀ (fuel : Nat) (head : List conn_node) (set : Finset Int) (max : Int) (os : σ)
      (ok : Bool) (r : fill_result σ),
      fill_top M probe F P fuel head set max os ok = some r →
      ∀ fuel1, fuel ≤ fuel1 → fill_top M probe F P fuel1 head set max os ok = some r := by
  intro fuel
  induction fuel with
  | zero =>
    intro head set max os ok r h
    simp [fill_top] at h
  | succ k ih =>
    intro head set max os ok r h fuel1 hle
    obtain ⟨k1, rfl⟩ : ∃ k1, fuel1 = k1 + 1 := ⟨fuel1 - 1, by omega⟩
    unfold fill_top at h ⊢
    cases hs : fill_scan M probe F P head head set max os ok with
    | done set1 max1 os1 ok1 =>
      rw [hs] at h
      exact h
    | top l1 set1 max1 os1 ok1 =>
      rw [hs] at h
      exact ih l1 set1 max1 os1 ok1 r h k1 (by omega)

theorem fill_restarts_fuel {σ : Type} (M : Int) (probe : σ → Int → select_result × σ)
    (F P : Int) :
    ∀ (fuel : Nat) (head : List conn_node) (set : Finset Int) (max : Int) (os : σ)
      (ok : Bool) (n : Nat), fill_restarts M probe F P fuel head set max os ok = some n →
      ∀ fuel1, fuel ≤ fuel1 →
        fill_restarts M probe F P fuel1 head set max os ok = some n := by
  intro fuel
  induction fuel with
  | zero =>
    intro head set max os ok n h
    simp [fill_restarts] at h
  | succ k ih =>
    intro head set max os ok n h fuel1 hle
    obtain ⟨k1, rfl⟩ : ∃ k1, fuel1 = k1 + 1 := ⟨fuel1 - 1, by omega⟩
    unfold fill_restarts at h ⊢
    cases hs : fill_scan M probe F P head head set max os ok with
    | done set1 max1 os1 ok1 =>
      rw [hs] at h
      exact h
    | top l1 set1 max1 os1 ok1 =>
      rw [hs] at h
      simp only [] at h ⊢
      cases hn : fill_restarts M probe F P k l1 set1 max1 os1 ok1 with
      | none => rw [hn] at h; simp at h
      | some m =>
        rw [hn] at h
        rw [ih l1 set1 max1 os1 ok1 m hn k1 (by omega)]
        exact h

/-! ## Effect of a scan on the list -/

theorem flags_skip_zero (c : conn_node) : flags_skip 0 c = false := by
  simp [flags_skip]

theorem purpose_skip_wildcard (M : Int) (c : conn_node) : purpose_skip M M c = false := by
  simp [purpose_skip]

/-! ## Frame of `clist_set_purpose` -/

theorem set_purpose_list {l : List conn_node} (hu : uniq l) {c : conn_node} (hc : c ∈ l)
    (p : Int) :
    clist_set_purpose l c.cn_fd p =
      (0, { c with cn_purpose := p } :: l.filter (fun x => decide (x.cn_fd ≠ c.cn_fd))) := by
  rw [set_purpose_present (find_of_mem hu hc), uniq_eraseP_eq_filter hu, filter_not_has_fd]

/-- C19 (`clist_set_purpose` changes only one purpose). On a list with uniqueness, when
`d` has the entry `c`, `clist_set_purpose(d, p)` returns `0` and leaves `c` with the
purpose `p` and its descriptor and flags as before, at the head, followed by the other
entries, unchanged and in their order: the list is, up to the order, the old one with
the purpose of the entry of `d` replaced, so no entry is added or removed, and
`clist_get_flags(d)` still returns the flags of `c`. When `d` has no entry it returns
`-1` and leaves the list, order included, exactly as it was. -/
theorem C19_set_purpose_frame (l : List conn_node) (hu : uniq l) (d p : Int) :
    (∀ c ∈ l, c.cn_fd = d →
      clist_set_purpose l d p =
        (0, { cn_fd := c.cn_fd, cn_flags := c.cn_flags, cn_purpose := p } ::
          l.filter (fun x => decide (x.cn_fd ≠ d))) ∧
      (clist_get_flags (clist_set_purpose l d p).2 d).1 = c.cn_flags) ∧
    (clist_set_purpose l d p).2.Perm
      (l.map (fun x => if x.cn_fd = d then { x with cn_purpose := p } else x)) ∧
    (clist_set_purpose l d p).2.length = l.length ∧
    (∀ x : Int, registered (clist_set_purpose l d p).2 x ↔ registered l x) ∧
    (¬ registered l d → clist_set_purpose l d p = (-1, l)) := by
  have hperm : (clist_set_purpose l d p).2.Perm
      (l.map (fun x => if x.cn_fd = d then { x with cn_purpose := p } else x)) := by
    by_cases h : registered l d
    · obtain ⟨c, hc, rfl⟩ := h
      have hfind := find_of_mem hu hc
      rw [set_purpose_present hfind]
      have hmap := (find_perm hfind).map
        (fun x => if x.cn_fd = c.cn_fd then { x with cn_purpose := p } else x)
      refine List.Perm.trans ?_ hmap
      rw [List.map_cons, if_pos rfl]
      have hid : (l.eraseP (has_fd c.cn_fd)).map
          (fun x => if x.cn_fd = c.cn_fd then { x with cn_purpose := p } else x) =
          l.eraseP (has_fd c.cn_fd) := by
        conv_rhs => rw [← List.map_id (l.eraseP (has_fd c.cn_fd))]
        apply List.map_congr_left
        intro a ha
        have hne : a.cn_fd ≠ c.cn_fd := fun hfa =>
          not_registered_eraseP hu c.cn_fd ⟨a, ha, hfa⟩
        simp [hne]
      rw [hid]
    · rw [set_purpose_absent h]
      have hid : l.map (fun x => if x.cn_fd = d then { x with cn_purpose := p } else x) = l := by
        conv_rhs => rw [← List.map_id l]
        apply List.map_congr_left
        intro a ha
        have hne : a.cn_fd ≠ d := fun hfa => h ⟨a, ha, hfa⟩
        simp [hne]
      rw [hid]
  refine ⟨?_, hperm, ?_, fun x => registered_set_purpose l d p x,
    fun h => set_purpose_absent h p⟩
  · intro c hc hfd
    subst hfd
    have hl := set_purpose_list hu hc p
    refine ⟨hl, ?_⟩
    rw [hl]
    show (clist_get_flags ({ cn_fd := c.cn_fd, cn_flags := c.cn_flags, cn_purpose := p } ::
      l.filter (fun x => decide (x.cn_fd ≠ c.cn_fd))) c.cn_fd).1 = c.cn_flags
    rw [get_flags_present (find_head c.cn_fd
      { cn_fd := c.cn_fd, cn_flags := c.cn_flags, cn_purpose := p } _ rfl)]
  · rw [hperm.length_eq, List.length_map]

/-- C19, at the list `[(3, flags 1, purpose 4), (2, flags 6, purpose 5)]` with
`set_purpose(2, 7)`, and with the absent descriptor 9. -/
theorem C19_set_purpose_frame_witness :
    uniq [⟨3, 1, 4⟩, ⟨2, 6, 5⟩] ∧
    clist_set_purpose [⟨3, 1, 4⟩, ⟨2, 6, 5⟩] 2 7 = (0, [⟨2, 6, 7⟩, ⟨3, 1, 4⟩]) ∧
    ¬ registered [⟨3, 1, 4⟩, ⟨2, 6, 5⟩] 9 ∧
    clist_set_purpose [⟨3, 1, 4⟩, ⟨2, 6, 5⟩] 9 7 = (-1, [⟨3, 1, 4⟩, ⟨2, 6, 5⟩]) :=
  ⟨by decide,
    ((C19_set_purpose_frame [⟨3, 1, 4⟩, ⟨2, 6, 5⟩] (by decide) 2 7).1 ⟨2, 6, 5⟩ (by decide)
      rfl).1,
    by decide,
    (C19_set_purpose_frame [⟨3, 1, 4⟩, ⟨2, 6, 5⟩] (by decide) 9 7).2.2.2.2 (by decide)⟩

/-! ## Capacity of the `fd_set`s -/

/-- A run of the loop on entries whose filter-passing descriptors are within the
capacity keeps `defined` as it was. -/
theorem fill_scan_in_range {σ : Type} (M : Int) (probe : σ → Int → select_result × σ)
    (F P : Int) (head : List conn_node) :
    ∀ (rem : List conn_node), passing_in_range M F P rem →
      ∀ (set : Finset Int) (max : Int) (os : σ) (ok : Bool),
        (fill_scan M probe F P head rem set max os ok).defined = ok := by
  intro rem
  induction rem with
  | nil => intro _ set max os ok; rfl
  | cons c rest ih =>
    intro hv set max os ok
    have hrest : passing_in_range M F P rest :=
      fun a ha hpa => hv a (List.mem_cons_of_mem _ ha) hpa
    unfold fill_scan
    by_cases hf : flags_skip F c = true
    · rw [if_pos hf]; exact ih hrest _ _ _ _
    · rw [if_neg hf]
      by_cases hp : purpose_skip M P c = true
      · rw [if_pos hp]; exact ih hrest _ _ _ _
      · rw [if_neg hp]
        have hpass : passes_filter M F P c :=
          (passes_filter_iff M F P c).2 ⟨by simpa using hf, by simpa using hp⟩
        have hc := hv c (List.mem_cons_self _ _) hpass
        simp only []
        by_cases hb : bad_descriptor (probe os c.cn_fd).1 = true
        · rw [if_pos hb]
          simp [scan_end.defined, hc]
        · rw [if_neg hb, ih hrest]
          simp [hc]

theorem passing_in_range_sublist {M F P : Int} {l1 l2 : List conn_node}
    (hs : List.Sublist l1 l2) (h : passing_in_range M F P l2) : passing_in_range M F P l1 :=
  fun c hc hpc => h c (hs.subset hc) hpc

theorem fill_top_in_range {σ : Type} (M : Int) (probe : σ → Int → select_result × σ)
    (F P : Int) :
    ∀ (fuel : Nat) (head : List conn_node), passing_in_range M F P head →
      ∀ (set : Finset Int) (max : Int) (os : σ) (ok : Bool) (r : fill_result σ),
        fill_top M probe F P fuel head set max os ok = some r → r.defined = ok := by
  intro fuel
  induction fuel with
  | zero =>
    intro head _ set max os ok r h
    simp [fill_top] at h
  | succ k ih =>
    intro head hv set max os ok r h
    have hscan := fill_scan_in_range M probe F P head head hv set max os ok
    unfold fill_top at h
    cases hs : fill_scan M probe F P head head set max os ok with
    | done set1 max1 os1 ok1 =>
      rw [hs] at h hscan
      simp only [Option.some.injEq] at h
      subst h
      exact hscan
    | top l1 set1 max1 os1 ok1 =>
      rw [hs] at h hscan
      obtain ⟨-, a, -, -, -, hl1⟩ :=
        fill_scan_top M probe F P head head set max os ok l1 set1 max1 os1 ok1 hs
      subst hl1
      have hok : ok1 = ok := hscan
      rw [← hok]
      exact ih _ (passing_in_range_sublist (List.eraseP_sublist head) hv) set1 max1 os1 ok1 r h

/-- A run of the loop that ends `defined` started so and handed `FD_SET` only
descriptors within the capacity: all the filter-passing entries when it reached the end
of the list, the evicted one when it left through `goto top`. -/
theorem fill_scan_defined {σ : Type} (M : Int) (probe : σ → Int → select_result × σ)
    (F P : Int) (head : List conn_node) :
    ∀ (rem : List conn_node) (set : Finset Int) (max : Int) (os : σ) (ok : Bool),
      (∀ set1 max1 os1, fill_scan M probe F P head rem set max os ok =
          scan_end.done set1 max1 os1 true → ok = true ∧ passing_in_range M F P rem) ∧
      (∀ l1 set1 max1 os1, fill_scan M probe F P head rem set max os ok =
          scan_end.top l1 set1 max1 os1 true →
        ok = true ∧ ∃ c ∈ rem, l1 = head.eraseP (has_fd c.cn_fd) ∧ fd_valid c.cn_fd = true) := by
  intro rem
  induction rem with
  | nil =>
    intro set max os ok
    constructor
    · intro set1 max1 os1 h
      simp only [fill_scan, scan_end.done.injEq] at h
      exact ⟨h.2.2.2, fun c hc => absurd hc (List.not_mem_nil c)⟩
    · intro l1 set1 max1 os1 h
      simp [fill_scan] at h
  | cons c rest ih =>
    intro set max os ok
    unfold fill_scan
    by_cases hf : flags_skip F c = true
    · rw [if_pos hf]
      obtain ⟨h1, h2⟩ := ih set max os ok
      constructor
      · intro set1 max1 os1 h
        obtain ⟨hok, hv⟩ := h1 set1 max1 os1 h
        refine ⟨hok, ?_⟩
        intro a ha hpa
        rcases List.mem_cons.1 ha with rfl | ha
        · rw [passes_filter_iff] at hpa
          rw [hpa.1] at hf
          exact absurd hf (by simp)
        · exact hv a ha hpa
      · intro l1 set1 max1 os1 h
        obtain ⟨hok, a, ha, hrest⟩ := h2 l1 set1 max1 os1 h
        exact ⟨hok, a, List.mem_cons_of_mem _ ha, hrest⟩
    · rw [if_neg hf]
      by_cases hp : purpose_skip M P c = true
      · rw [if_pos hp]
        obtain ⟨h1, h2⟩ := ih set max os ok
        constructor
        · intro set1 max1 os1 h
          obtain ⟨hok, hv⟩ := h1 set1 max1 os1 h
          refine ⟨hok, ?_⟩
          intro a ha hpa
          rcases List.mem_cons.1 ha with rfl | ha
          · rw [passes_filter_iff] at hpa
            rw [hpa.2] at hp
            exact absurd hp (by simp)
          · exact hv a ha hpa
        · intro l1 set1 max1 os1 h
          obtain ⟨hok, a, ha, hrest⟩ := h2 l1 set1 max1 os1 h
          exact ⟨hok, a, List.mem_cons_of_mem _ ha, hrest⟩
      · rw [if_neg hp]
        simp only []
        by_cases hb : bad_descriptor (probe os c.cn_fd).1 = true
        · rw [if_pos hb]
          constructor
          · intro set1 max1 os1 h
            simp at h
          · intro l1 set1 max1 os1 h
            simp only [scan_end.top.injEq, Bool.and_eq_true] at h
            obtain ⟨hl, -, -, -, hok, hc⟩ := h
            exact ⟨hok, c, List.mem_cons_self _ _, by rw [← hl, delete_nt_list], hc⟩
        · rw [if_neg hb]
          obtain ⟨h1, h2⟩ := ih (insert c.cn_fd set) (if c.cn_fd ≥ max then c.cn_fd else max)
            (probe os c.cn_fd).2 (ok && fd_valid c.cn_fd && fd_valid c.cn_fd)
          constructor
          · intro set1 max1 os1 h
            obtain ⟨hok, hv⟩ := h1 set1 max1 os1 h
            simp only [Bool.and_eq_true] at hok
            refine ⟨hok.1.1, ?_⟩
            intro a ha _
            rcases List.mem_cons.1 ha with rfl | ha
            · exact hok.2
            · exact hv a ha ‹_›
          · intro l1 set1 max1 os1 h
            obtain ⟨hok, a, ha, hrest⟩ := h2 l1 set1 max1 os1 h
            simp only [Bool.and_eq_true] at hok
            exact ⟨hok.1.1, a, List.mem_cons_of_mem _ ha, hrest⟩

/-- A call is `defined` exactly when it started so and every entry that passes the
filter has its descriptor within the capacity of an `fd_set`. -/
theorem fill_top_defined {σ : Type} (M : Int) (probe : σ → Int → select_result × σ)
    (F P : Int) :
    ∀ (fuel : Nat) (head : List conn_node) (set : Finset Int) (max : Int) (os : σ)
      (ok : Bool) (r : fill_result σ),
      fill_top M probe F P fuel head set max os ok = some r → r.defined = true →
      ok = true ∧ passing_in_range M F P head := by
  intro fuel
  induction fuel with
  | zero =>
    intro head set max os ok r h
    simp [fill_top] at h
  | succ k ih =>
    intro head set max os ok r h hd
    obtain ⟨h1, h2⟩ := fill_scan_defined M probe F P head head set max os ok
    unfold fill_top at h
    cases hs : fill_scan M probe F P head head set max os ok with
    | done set1 max1 os1 ok1 =>
      rw [hs] at h
      simp only [Option.some.injEq] at h
      subst h
      simp only [] at hd
      subst hd
      exact h1 set1 max1 os1 hs
    | top l1 set1 max1 os1 ok1 =>
      rw [hs] at h
      obtain ⟨hok1, hv1⟩ := ih l1 set1 max1 os1 ok1 r h hd
      subst hok1
      obtain ⟨hok, a, ha, hl1, hva⟩ := h2 l1 set1 max1 os1 hs
      refine ⟨hok, ?_⟩
      intro c hc hpc
      by_cases hc1 : c ∈ l1
      · exact hv1 c hc1 hpc
      · have hfd : has_fd a.cn_fd c = true := by
          by_contra hne
          exact hc1 (hl1 ▸ (List.mem_eraseP_of_neg hne).2 hc)
        have hfd2 : c.cn_fd = a.cn_fd := by simpa [has_fd] using hfd
        rw [hfd2]
        exact hva

/-- The call has a defined behaviour exactly when every entry that passes the filter
has its descriptor within the capacity of an `fd_set`. -/
theorem fill_fdset_defined_iff {σ : Type} (M : Int) (probe : σ → Int → select_result × σ)
    (os : σ) (l : List conn_node) (set : Finset Int) (F P : Int) (r : fill_result σ)
    (h : clist_fill_fdset M probe os l set F P = some r) :
    r.defined = true ↔ passing_in_range M F P l :=
  ⟨fun hd => (fill_top_defined M probe F P _ l set (-1) os true r h hd).2,
    fun hv => fill_top_in_range M probe F P _ l hv set (-1) os true r h⟩

/-! ## The log of the probes -/

/-- Attaching the log changes nothing of a run of the loop. -/
theorem traced_scan_sim {σ : Type} (M : Int) (probe : σ → Int → select_result × σ)
    (F P : Int) (head : List conn_node) :
    ∀ (rem : List conn_node) (set : Finset Int) (max : Int)
      (s : σ × List (Int × select_result)) (ok : Bool),
      (fill_scan M (traced probe) F P head rem set max s ok).map_os Prod.fst =
        fill_scan M probe F P head rem set max s.1 ok := by
  intro rem
  induction rem with
  | nil => intro set max s ok; rfl
  | cons c rest ih =>
    intro set max s ok
    unfold fill_scan
    by_cases hf : flags_skip F c = true
    · rw [if_pos hf, if_pos hf]; exact ih _ _ _ _
    · rw [if_neg hf, if_neg hf]
      by_cases hp : purpose_skip M P c = true
      · rw [if_pos hp, if_pos hp]; exact ih _ _ _ _
      · rw [if_neg hp, if_neg hp]
        simp only []
        by_cases hb : bad_descriptor (probe s.1 c.cn_fd).1 = true
        · have hb2 : bad_descriptor (traced probe s c.cn_fd).1 = true := hb
          rw [if_pos hb, if_pos hb2]; rfl
        · have hb2 : ¬ bad_descriptor (traced probe s c.cn_fd).1 = true := hb
          rw [if_neg hb, if_neg hb2]
          exact ih _ _ _ _

theorem traced_top_sim {σ : Type} (M : Int) (probe : σ → Int → select_result × σ)
    (F P : Int) :
    ∀ (fuel : Nat) (head : List conn_node) (set : Finset Int) (max : Int)
      (s : σ × List (Int × select_result)) (ok : Bool),
      (fill_top M (traced probe) F P fuel head set max s ok).map
          (fill_result.map_os Prod.fst) =
        fill_top M probe F P fuel head set max s.1 ok := by
  intro fuel
  induction fuel with
  | zero => intro head set max s ok; rfl
  | succ n ih =>
    intro head set max s ok
    unfold fill_top
    rw [← traced_scan_sim M probe F P head head set max s ok]
    cases fill_scan M (traced probe) F P head head set max s ok with
    | done set1 max1 s1 ok1 => rfl
    | top l1 set1 max1 s1 ok1 => exact ih _ _ _ _ _

/-- The call with the log attached is the call: same list, set, `max`, state of the
probe and `defined`. -/
theorem traced_fill_sim {σ : Type} (M : Int) (probe : σ → Int → select_result × σ)
    (os : σ) (l : List conn_node) (set : Finset Int) (F P : Int)
    (r : fill_result (σ × List (Int × select_result)))
    (h : clist_fill_fdset M (traced probe) (os, []) l set F P = some r) :
    clist_fill_fdset M probe os l set F P = some (r.map_os Prod.fst) := by
  unfold clist_fill_fdset at h ⊢
  rw [← traced_top_sim M probe F P (l.length + 1) l set (-1) (os, []) true, h]
  rfl

/-- What a run of the loop adds to the log: answers of the probe, none reporting an
invalid handle but the last one of a run that leaves through `goto top`, which is about
the evicted descriptor; and the descriptors added to the set are logged. -/
theorem traced_scan_spec {σ : Type} (M : Int) (probe : σ → Int → select_result × σ)
    (F P : Int) (head : List conn_node) :
    ∀ (rem : List conn_node) (set : Finset Int) (max : Int)
      (s : σ × List (Int × select_result)) (ok : Bool),
      (∀ set1 max1 s1 ok1, fill_scan M (traced probe) F P head rem set max s ok =
          scan_end.done set1 max1 s1 ok1 →
        ∃ new, s1.2 = new ++ s.2 ∧
          (∀ e ∈ new, ¬ reports_invalid e.2 ∧ ∃ o, e.2 = (probe o e.1).1) ∧
          (∀ x ∈ set1, x ∈ set ∨ ∃ e ∈ new, e.1 = x)) ∧
      (∀ l1 set1 max1 s1 ok1, fill_scan M (traced probe) F P head rem set max s ok =
          scan_end.top l1 set1 max1 s1 ok1 →
        ∃ new c res, s1.2 = (c.cn_fd, res) :: (new ++ s.2) ∧ reports_invalid res ∧
          (∃ o, res = (probe o c.cn_fd).1) ∧ c ∈ rem ∧
          l1 = head.eraseP (has_fd c.cn_fd) ∧
          (∀ e ∈ new, ¬ reports_invalid e.2 ∧ ∃ o, e.2 = (probe o e.1).1) ∧
          (∀ x ∈ set1, x ∈ set ∨ ∃ e ∈ new, e.1 = x)) := by
  intro rem
  induction rem with
  | nil =>
    intro set max s ok
    constructor
    · intro set1 max1 s1 ok1 h
      simp only [fill_scan, scan_end.done.injEq] at h
      obtain ⟨rfl, -, rfl, -⟩ := h
      exact ⟨[], rfl, fun e he => absurd he (List.not_mem_nil e), fun x hx => Or.inl hx⟩
    · intro l1 set1 max1 s1 ok1 h
      simp [fill_scan] at h
  | cons c rest ih =>
    intro set max s ok
    unfold fill_scan
    by_cases hf : flags_skip F c = true
    · rw [if_pos hf]
      obtain ⟨h1, h2⟩ := ih set max s ok
      constructor
      · exact h1
      · intro l1 set1 max1 s1 ok1 h
        obtain ⟨new, a, res, e1, e2, e3, ha, hrest⟩ := h2 l1 set1 max1 s1 ok1 h
        exact ⟨new, a, res, e1, e2, e3, List.mem_cons_of_mem _ ha, hrest⟩
    · rw [if_neg hf]
      by_cases hp : purpose_skip M P c = true
      · rw [if_pos hp]
        obtain ⟨h1, h2⟩ := ih set max s ok
        constructor
        · exact h1
        · intro l1 set1 max1 s1 ok1 h
          obtain ⟨new, a, res, e1, e2, e3, ha, hrest⟩ := h2 l1 set1 max1 s1 ok1 h
          exact ⟨new, a, res, e1, e2, e3, List.mem_cons_of_mem _ ha, hrest⟩
      · rw [if_neg hp]
        simp only []
        by_cases hb : bad_descriptor (traced probe s c.cn_fd).1 = true
        · rw [if_pos hb]
          constructor
          · intro set1 max1 s1 ok1 h
            simp at h
          · intro l1 set1 max1 s1 ok1 h
            simp only [scan_end.top.injEq] at h
            obtain ⟨hl, rfl, -, rfl, -⟩ := h
            refine ⟨[], c, (probe s.1 c.cn_fd).1, rfl, (reports_invalid_iff _).2 hb,
              ⟨s.1, rfl⟩, List.mem_cons_self _ _, ?_,
              fun e he => absurd he (List.not_mem_nil e), fun x hx => Or.inl hx⟩
            rw [← hl, delete_nt_list]
        · rw [if_neg hb]
          have hgood : ¬ reports_invalid (probe s.1 c.cn_fd).1 := by
            rw [reports_invalid_iff]; exact hb
          obtain ⟨h1, h2⟩ := ih (insert c.cn_fd set)
            (if c.cn_fd ≥ max then c.cn_fd else max) (traced probe s c.cn_fd).2
            (ok && fd_valid c.cn_fd && fd_valid c.cn_fd)
          have hnew : ∀ new : List (Int × select_result),
              (∀ e ∈ new, ¬ reports_invalid e.2 ∧ ∃ o, e.2 = (probe o e.1).1) →
              ∀ e ∈ new ++ [(c.cn_fd, (probe s.1 c.cn_fd).1)],
                ¬ reports_invalid e.2 ∧ ∃ o, e.2 = (probe o e.1).1 := by
            intro new hn e he
            rcases List.mem_append.1 he with he | he
            · exact hn e he
            · rw [List.mem_singleton] at he
              subst he
              exact ⟨hgood, s.1, rfl⟩
          have hset : ∀ (new : List (Int × select_result)) (set1 : Finset Int),
              (∀ x ∈ set1, x ∈ insert c.cn_fd set ∨ ∃ e ∈ new, e.1 = x) →
              ∀ x ∈ set1, x ∈ set ∨
                ∃ e ∈ new ++ [(c.cn_fd, (probe s.1 c.cn_fd).1)], e.1 = x := by
            intro new set1 hs x hx
            rcases hs x hx with h | ⟨e, he, hex⟩
            · rcases Finset.mem_insert.1 h with h | h
              · exact Or.inr ⟨_, List.mem_append_right _ (List.mem_singleton_self _), h.symm⟩
              · exact Or.inl h
            · exact Or.inr ⟨e, List.mem_append_left _ he, hex⟩
          constructor
          · intro set1 max1 s1 ok1 h
            obtain ⟨new, e1, e2, e3⟩ := h1 set1 max1 s1 ok1 h
            refine ⟨new ++ [(c.cn_fd, (probe s.1 c.cn_fd).1)], ?_, hnew new e2,
              hset new set1 e3⟩
            rw [e1]
            simp [traced]
          · intro l1 set1 max1 s1 ok1 h
            obtain ⟨new, a, res, e1, e2, e3, ha, hl, e4, e5⟩ := h2 l1 set1 max1 s1 ok1 h
            refine ⟨new ++ [(c.cn_fd, (probe s.1 c.cn_fd).1)], a, res, ?_, e2, e3,
              List.mem_cons_of_mem _ ha, hl, hnew new e4, hset new set1 e5⟩
            rw [e1]
            simp [traced]

/-- What a call adds to the log: every entry is an answer of the probe; a descriptor
that entered the set was logged with an answer that is not an invalid handle; an entry
that left the list was logged with an invalid handle; and, with uniqueness, a descriptor
logged with an invalid handle has no entry left. -/
theorem traced_top_spec {σ : Type} (M : Int) (probe : σ → Int → select_result × σ)
    (F P : Int) :
    ∀ (fuel : Nat) (head : List conn_node) (set : Finset Int) (max : Int)
      (s : σ × List (Int × select_result)) (ok : Bool)
      (r : fill_result (σ × List (Int × select_result))),
      fill_top M (traced probe) F P fuel head set max s ok = some r →
      ∃ new, r.os.2 = new ++ s.2 ∧
        (∀ e ∈ new, ∃ o, e.2 = (probe o e.1).1) ∧
        (∀ x ∈ r.set, x ∈ set ∨ ∃ e ∈ new, e.1 = x ∧ ¬ reports_invalid e.2) ∧
        (∀ c ∈ head, c ∉ r.conn_list → ∃ e ∈ new, e.1 = c.cn_fd ∧ reports_invalid e.2) ∧
        (uniq head → ∀ e ∈ new, reports_invalid e.2 → ¬ registered r.conn_list e.1) := by
  intro fuel
  induction fuel with
  | zero =>
    intro head set max s ok r h
    simp [fill_top] at h
  | succ n ih =>
    intro head set max s ok r h
    obtain ⟨h1, h2⟩ := traced_scan_spec M probe F P head head set max s ok
    unfold fill_top at h
    cases hs : fill_scan M (traced probe) F P head head set max s ok with
    | done set1 max1 s1 ok1 =>
      rw [hs] at h
      simp only [Option.some.injEq] at h
      subst h
      obtain ⟨new, e1, e2, e3⟩ := h1 set1 max1 s1 ok1 hs
      refine ⟨new, e1, fun e he => (e2 e he).2, ?_, fun c hc hn => absurd hc hn, ?_⟩
      · intro x hx
        rcases e3 x hx with h | ⟨e, he, hex⟩
        · exact Or.inl h
        · exact Or.inr ⟨e, he, hex, (e2 e he).1⟩
      · intro _ e he hbad
        exact absurd hbad (e2 e he).1
    | top l1 set1 max1 s1 ok1 =>
      rw [hs] at h
      simp only [] at h
      obtain ⟨new1, a, res, e1, hres, hans, ha, hl1, e2, e3⟩ := h2 l1 set1 max1 s1 ok1 hs
      obtain ⟨new2, f1, f2, f3, f4, f5⟩ := ih l1 set1 max1 s1 ok1 r h
      obtain ⟨hsub, -, -, -⟩ := fill_top_spec M (traced probe) F P n l1 set1 max1 s1 ok1 r h
      have hmem : ∀ e, e ∈ new2 ++ (a.cn_fd, res) :: new1 ↔
          e ∈ new2 ∨ e = (a.cn_fd, res) ∨ e ∈ new1 := by
        intro e
        simp [List.mem_append, List.mem_cons]
      refine ⟨new2 ++ (a.cn_fd, res) :: new1, ?_, ?_, ?_, ?_, ?_⟩
      · rw [f1, e1]
        simp
      · intro e he
        rcases (hmem e).1 he with he | rfl | he
        · exact f2 e he
        · exact hans
        · exact (e2 e he).2
      · intro x hx
        rcases f3 x hx with h | ⟨e, he, hex, hgood⟩
        · rcases e3 x h with h | ⟨e, he, hex⟩
          · exact Or.inl h
          · exact Or.inr ⟨e, (hmem e).2 (Or.inr (Or.inr he)), hex, (e2 e he).1⟩
        · exact Or.inr ⟨e, (hmem e).2 (Or.inl he), hex, hgood⟩
      · intro c hc hn
        by_cases hc1 : c ∈ l1
        · obtain ⟨e, he, hex, hbad⟩ := f4 c hc1 hn
          exact ⟨e, (hmem e).2 (Or.inl he), hex, hbad⟩
        · have hfd : has_fd a.cn_fd c = true := by
            by_contra hne
            exact hc1 (hl1 ▸ (List.mem_eraseP_of_neg hne).2 hc)
          have hfd2 : c.cn_fd = a.cn_fd := by simpa [has_fd] using hfd
          exact ⟨(a.cn_fd, res), (hmem _).2 (Or.inr (Or.inl rfl)), hfd2.symm, hres⟩
      · intro hu e he hbad
        have hu1 : uniq l1 := hl1 ▸ uniq_eraseP _ hu
        rcases (hmem e).1 he with he | rfl | he
        · exact f5 hu1 e he hbad
        · intro hreg
          have := registered_of_sublist hsub hreg
          rw [hl1] at this
          exact not_registered_eraseP hu a.cn_fd this
        · exact absurd hbad (e2 e he).1

/-- The log of a call, started empty: see `traced_top_spec`. -/
theorem traced_fill_spec {σ : Type} (M : Int) (probe : σ → Int → select_result × σ)
    (os : σ) (l : List conn_node) (set : Finset Int) (F P : Int)
    (r : fill_result (σ × List (Int × select_result)))
    (h : clist_fill_fdset M (traced probe) (os, []) l set F P = some r) :
    (∀ e ∈ r.os.2, ∃ o, e.2 = (probe o e.1).1) ∧
    (∀ x ∈ r.set, x ∈ set ∨ ∃ e ∈ r.os.2, e.1 = x ∧ ¬ reports_invalid e.2) ∧
    (∀ c ∈ l, c ∉ r.conn_list → ∃ e ∈ r.os.2, e.1 = c.cn_fd ∧ reports_invalid e.2) ∧
    (uniq l → ∀ e ∈ r.os.2, reports_invalid e.2 → ¬ registered r.conn_list e.1) := by
  obtain ⟨new, e1, e2, e3, e4, e5⟩ :=
    traced_top_spec M probe F P (l.length + 1) l set (-1) (os, []) true r h
  simp only [List.append_nil] at e1
  rw [e1]
  exact ⟨e2, e3, e4, e5⟩

/-! ## The claims on the set builder and the drainer -/

theorem all_in_range_passing {l : List conn_node} (h : all_in_range l) (M F P : Int) :
    passing_in_range M F P l :=
  fun c hc _ => h c hc

/-- With a probe that answers by descriptor alone, the set built from the empty set
holds the descriptors of the entries that pass the filter and are not reported
invalid. -/
theorem fill_det_set (M : Int) (p : Int → select_result) (l : List conn_node)
    (F P : Int) (r : fill_result Unit)
    (hr : clist_fill_fdset M (det_probe p) () l ∅ F P = some r) :
    r.set = ((l.filter (fun c => decide (¬ reports_invalid (p c.cn_fd) ∧
      passes_filter M F P c))).map conn_node.cn_fd).toFinset := by
  ext x
  rw [fill_det_mem M p l F P r hr x]
  simp only [List.mem_toFinset, List.mem_map, List.mem_filter, decide_eq_true_eq]
  constructor
  · rintro ⟨c, hc, hgood, hpass, hfd⟩
    exact ⟨c, ⟨hc, hgood, hpass⟩, hfd⟩
  · rintro ⟨c, ⟨hc, hgood, hpass⟩, hfd⟩
    exact ⟨c, hc, hgood, hpass, hfd⟩

/-- C3 as stated fails for a descriptor beyond the capacity of an `fd_set`. The entry of
descriptor 1030 passes the filter `(0, MSGP_ALL)` and its probe succeeds, so the claim
puts 1030 in the returned set; the call hands 1030 to `FD_SET` on sets of `FD_SETSIZE`
bits, and has no defined behaviour. -/
theorem C3_filter_and_semantics_counterexample :
    passes_filter (-1) 0 (-1) ⟨1030, 0, 0⟩ ∧ ¬ reports_invalid select_ok ∧
    fd_valid 1030 = false ∧
    ∃ r, clist_fill_fdset (-1) (det_probe (fun _ => select_ok)) () [⟨1030, 0, 0⟩] ∅ 0 (-1) =
        some r ∧ r.defined = false :=
  ⟨by decide, by decide, by decide, ⟨[⟨1030, 0, 0⟩], {1030}, 1030, (), false⟩, rfl, rfl⟩

/-- C3 (filter AND semantics), amended. For every list in which each entry that passes
the filter has its descriptor within the capacity of an `fd_set` (from `0` to
`FD_SETSIZE - 1`), every flag mask `F`, purpose filter `P` and probe that answers by
descriptor alone, `clist_fill_fdset` called with an empty set returns with a defined
behaviour, and the set it returns is exactly the set of descriptors of the entries that
the probe does not report invalid, whose flags satisfy `F = 0` or `flags & F = F`, and
whose purpose is `P` unless `P` is `MSGP_ALL`. The condition on the descriptors is
exactly the one under which the call has a defined behaviour. After inserting 5 with
`MSG_OPEN`, inserting 7 with `MSG_OPEN | MSG_CONNECTED` and giving 7 the purpose 2, the
call with `(MSG_CONNECTED, MSGP_ALL)` yields the set `{7}` and returns 7, as long as 7
is not reported invalid. -/
theorem C3_filter_and_semantics (MSGP_ALL : Int) :
    (∀ (l : List conn_node) (F P : Int) (p : Int → select_result),
      passing_in_range MSGP_ALL F P l →
      ∃ r, clist_fill_fdset MSGP_ALL (det_probe p) () l ∅ F P = some r ∧
        r.defined = true ∧
        r.set = ((l.filter (fun c => decide (¬ reports_invalid (p c.cn_fd) ∧
          passes_filter MSGP_ALL F P c))).map conn_node.cn_fd).toFinset) ∧
    (∀ (l : List conn_node) (F P : Int) (p : Int → select_result) (r : fill_result Unit),
      clist_fill_fdset MSGP_ALL (det_probe p) () l ∅ F P = some r →
      (r.defined = true ↔ passing_in_range MSGP_ALL F P l)) ∧
    (∀ p : Int → select_result, ¬ reports_invalid (p 7) →
      ∃ r, clist_fill_fdset MSGP_ALL (det_probe p) ()
          (clist_set_purpose (clist_insert (clist_insert [] 5 MSG_OPEN).2 7
            (Int.lor MSG_OPEN MSG_CONNECTED)).2 7 2).2 ∅ MSG_CONNECTED MSGP_ALL = some r ∧
        r.defined = true ∧ r.set = {7} ∧ r.max = 7) := by
  have general : ∀ (l : List conn_node) (F P : Int) (p : Int → select_result),
      passing_in_range MSGP_ALL F P l →
      ∃ r, clist_fill_fdset MSGP_ALL (det_probe p) () l ∅ F P = some r ∧
        r.defined = true ∧
        r.set = ((l.filter (fun c => decide (¬ reports_invalid (p c.cn_fd) ∧
          passes_filter MSGP_ALL F P c))).map conn_node.cn_fd).toFinset := by
    intro l F P p hv
    obtain ⟨r, hr⟩ := fill_fdset_returns MSGP_ALL (det_probe p) () l ∅ F P
    exact ⟨r, hr, (fill_fdset_defined_iff MSGP_ALL (det_probe p) () l ∅ F P r hr).2 hv,
      fill_det_set MSGP_ALL p l F P r hr⟩
  refine ⟨general, fun l F P p r hr =>
    fill_fdset_defined_iff MSGP_ALL (det_probe p) () l ∅ F P r hr, ?_⟩
  intro p h7
  have hl : (clist_set_purpose (clist_insert (clist_insert [] 5 MSG_OPEN).2 7
      (Int.lor MSG_OPEN MSG_CONNECTED)).2 7 2).2 = [⟨7, 5, 2⟩, ⟨5, 1, 0⟩] := by decide
  have hrange : passing_in_range MSGP_ALL MSG_CONNECTED MSGP_ALL
      (clist_set_purpose (clist_insert (clist_insert [] 5 MSG_OPEN).2 7
        (Int.lor MSG_OPEN MSG_CONNECTED)).2 7 2).2 := by
    rw [hl]
    exact all_in_range_passing (by decide) _ _ _
  obtain ⟨r, hr, hdef, hset⟩ := general _ MSG_CONNECTED MSGP_ALL p hrange
  have h7set : r.set = {7} := by
    rw [hset, hl]
    have e1 : decide (¬ reports_invalid (p (conn_node.mk 7 5 2).cn_fd) ∧
        passes_filter MSGP_ALL MSG_CONNECTED MSGP_ALL (conn_node.mk 7 5 2)) = true := by
      rw [decide_eq_true_eq]
      exact ⟨h7, Or.inr (by decide), Or.inl rfl⟩
    have e2 : decide (¬ reports_invalid (p (conn_node.mk 5 1 0).cn_fd) ∧
        passes_filter MSGP_ALL MSG_CONNECTED MSGP_ALL (conn_node.mk 5 1 0)) = false := by
      rw [decide_eq_false_iff_not]
      rintro ⟨-, h, -⟩
      revert h
      decide
    simp only [List.filter_cons, e1, e2, if_true, Bool.false_eq_true, if_false,
      List.filter_nil, List.map_cons, List.map_nil]
    rfl
  refine ⟨r, hr, hdef, h7set, ?_⟩
  obtain ⟨h1, h2, -⟩ := fill_max_spec MSGP_ALL (det_probe p) () _ _ _ r hr
  rw [h7set] at h1 h2
  have := h2 7 (Finset.mem_singleton_self 7)
  rcases h1 with h | h
  · omega
  · exact Finset.mem_singleton.1 h

/-- C3 amended, at the list of the scenario with a probe under which every `select`
succeeds, and at a list with descriptors 3 and 1023. -/
theorem C3_filter_and_semantics_witness :
    (¬ reports_invalid ((fun _ => select_ok) (7 : Int)) ∧
      ∃ r, clist_fill_fdset (-1) (det_probe (fun _ => select_ok)) ()
          (clist_set_purpose (clist_insert (clist_insert [] 5 MSG_OPEN).2 7
            (Int.lor MSG_OPEN MSG_CONNECTED)).2 7 2).2 ∅ MSG_CONNECTED (-1) = some r ∧
        r.defined = true ∧ r.set = {7} ∧ r.max = 7) ∧
    (passing_in_range (-1) 0 (-1) [⟨3, 0, 0⟩, ⟨1023, 0, 0⟩] ∧
      ∃ r, clist_fill_fdset (-1) (det_probe (fun _ => select_ok)) ()
          [⟨3, 0, 0⟩, ⟨1023, 0, 0⟩] ∅ 0 (-1) = some r ∧ r.defined = true ∧
        r.set = {3, 1023}) :=
  ⟨⟨by decide, (C3_filter_and_semantics (-1)).2.2 (fun _ => select_ok) (by decide)⟩,
    by decide,
    ((C3_filter_and_semantics (-1)).1 [⟨3, 0, 0⟩, ⟨1023, 0, 0⟩] 0 (-1) (fun _ => select_ok)
      (by decide)).imp (fun _ h => ⟨h.1, h.2.1, h.2.2.trans (by decide)⟩)⟩

/-- C4 as stated fails in two ways. With a probe whose answers change during the call,
on the list with descriptors 5 and 7 and the filter `(0, MSGP_ALL)` that both entries
pass: the first probe of 5 succeeds and 5 enters the set; 7 is reported invalid and
evicted, and the loop restarts; the second probe of 5 reports `EBADF` and 5 is evicted.
So the entry of 5 passes the filter and the probe of 5 reports an invalid handle, `5`
has no entry afterwards, and yet 5 is in the set built by that call from the empty set.
And for a descriptor beyond the capacity of an `fd_set`: the entry of 1030 passes the
filter and its probe reports `EBADF`, but before the probe the call hands 1030 to
`FD_SET(curr->cn_fd, &test_fds)` and has no defined behaviour. -/
theorem C4_eviction_correctness_counterexample :
    (uniq [⟨5, 0, 0⟩, ⟨7, 0, 0⟩] ∧ passes_filter (-1) 0 (-1) ⟨5, 0, 0⟩ ∧
      reports_invalid (select_fail EBADF) ∧
      ∃ r, clist_fill_fdset (-1) (traced fading_probe) (0, []) [⟨5, 0, 0⟩, ⟨7, 0, 0⟩] ∅ 0
          (-1) = some r ∧
        clist_fill_fdset (-1) fading_probe 0 [⟨5, 0, 0⟩, ⟨7, 0, 0⟩] ∅ 0 (-1) =
          some (r.map_os Prod.fst) ∧
        (5, select_fail EBADF) ∈ r.os.2 ∧ ¬ registered r.conn_list 5 ∧ (5 : Int) ∈ r.set ∧
        r.defined = true) ∧
    (uniq [⟨1030, 0, 0⟩] ∧ passes_filter (-1) 0 (-1) ⟨1030, 0, 0⟩ ∧ fd_valid 1030 = false ∧
      ∃ r, clist_fill_fdset (-1) (det_probe (fun _ => select_fail EBADF)) ()
          [⟨1030, 0, 0⟩] ∅ 0 (-1) = some r ∧ r.defined = false) :=
  ⟨⟨by decide, by decide, by decide,
      ⟨[], {5}, 5, (3, [(5, select_fail EBADF), (7, select_fail EBADF), (5, select_ok)]),
        true⟩,
      rfl, rfl, by decide, by decide, by decide, rfl⟩,
    ⟨by decide, by decide, by decide, ⟨[], ∅, -1, (), false⟩, rfl, rfl⟩⟩

/-- C4 (eviction correctness), amended. On a list with uniqueness in which each entry
that passes the filter has its descriptor within the capacity of an `fd_set`, for every
probe, whatever it answers and however its answers change, the call has a defined
behaviour, and if an entry of descriptor `d` passes the flag and purpose filters of the
`clist_fill_fdset` call and a probe of `d` made by the call reports an invalid handle
(`EBADF` or `EINVAL`), then after the call `d` has no entry, `clist_get_flags(d)`
returns `0`, `clist_get_purpose(d)` returns `-1`, and no later call, with a defined
behaviour, on a list without an entry for `d` puts `d` in its set; `d` is not in the set
built by that call, unless the caller had put it there, provided every probe of `d`
made by the call reported an invalid handle. For a probe that reports `d` invalid
whenever it is asked, such as a probe that answers by descriptor alone, the call does
probe `d` and all of this holds. The log is the list of the probes made by the call,
which is the call itself with the log attached. -/
theorem C4_eviction_correctness (MSGP_ALL : Int) {σ : Type}
    (probe : σ → Int → select_result × σ) (os : σ) (l : List conn_node) (hu : uniq l)
    (set : Finset Int) (F P d : Int) (hv : passing_in_range MSGP_ALL F P l)
    (hpass : ∃ c ∈ l, c.cn_fd = d ∧ passes_filter MSGP_ALL F P c) :
    ∃ r, clist_fill_fdset MSGP_ALL (traced probe) (os, []) l set F P = some r ∧
      clist_fill_fdset MSGP_ALL probe os l set F P = some (r.map_os Prod.fst) ∧
      r.defined = true ∧
      ((∃ res, (d, res) ∈ r.os.2 ∧ reports_invalid res) →
        ¬ registered r.conn_list d ∧
        (clist_get_flags r.conn_list d).1 = 0 ∧
        (clist_get_purpose r.conn_list d).1 = -1 ∧
        ((∀ res, (d, res) ∈ r.os.2 → reports_invalid res) → d ∉ set → d ∉ r.set) ∧
        ∀ (τ : Type) (probe2 : τ → Int → select_result × τ) (os2 : τ)
          (l2 : List conn_node) (set2 : Finset Int) (F2 P2 : Int),
          passing_in_range MSGP_ALL F2 P2 l2 → ¬ registered l2 d → d ∉ set2 →
          ∃ r2, clist_fill_fdset MSGP_ALL probe2 os2 l2 set2 F2 P2 = some r2 ∧
            r2.defined = true ∧ d ∉ r2.set ∧ ¬ registered r2.conn_list d) ∧
      ((∀ o, reports_invalid (probe o d).1) →
        (∃ res, (d, res) ∈ r.os.2 ∧ reports_invalid res) ∧
        (∀ res, (d, res) ∈ r.os.2 → reports_invalid res)) := by
  obtain ⟨r, hr⟩ := fill_fdset_returns MSGP_ALL (traced probe) (os, []) l set F P
  obtain ⟨hans, hset, hrem, hgone⟩ := traced_fill_spec MSGP_ALL probe os l set F P r hr
  obtain ⟨-, -, hall, -⟩ := fill_fdset_spec MSGP_ALL (traced probe) (os, []) l set F P r hr
  refine ⟨r, hr, traced_fill_sim MSGP_ALL probe os l set F P r hr,
    (fill_fdset_defined_iff MSGP_ALL (traced probe) (os, []) l set F P r hr).2 hv, ?_, ?_⟩
  · rintro ⟨res, hmem, hbad⟩
    have hno : ¬ registered r.conn_list d := hgone hu (d, res) hmem hbad
    refine ⟨hno, by rw [get_flags_absent hno], by rw [get_purpose_absent hno], ?_, ?_⟩
    · intro hallbad hd hx
      rcases hset d hx with h | ⟨e, he, hed, hgood⟩
      · exact hd h
      · apply hgood
        apply hallbad e.2
        rw [← hed]
        exact he
    · intro τ probe2 os2 l2 set2 F2 P2 hv2 habs hd
      obtain ⟨r2, hr2⟩ := fill_fdset_returns MSGP_ALL probe2 os2 l2 set2 F2 P2
      exact ⟨r2, hr2,
        (fill_fdset_defined_iff MSGP_ALL probe2 os2 l2 set2 F2 P2 r2 hr2).2 hv2,
        fill_not_mem_of_absent MSGP_ALL probe2 os2 l2 set2 F2 P2 r2 hr2 habs hd⟩
  · intro hbad
    obtain ⟨c, hc, hfd, hpc⟩ := hpass
    constructor
    · have hnot : c ∉ r.conn_list := by
        intro hmem
        obtain ⟨-, o, hgood⟩ := hall c hmem hpc
        rw [hfd] at hgood
        exact hgood (hbad o.1)
      obtain ⟨e, he, hed, hebad⟩ := hrem c hc hnot
      refine ⟨e.2, ?_, hebad⟩
      rw [← hfd, ← hed]
      exact he
    · intro res hmem
      obtain ⟨o, ho⟩ := hans (d, res) hmem
      rw [show res = (probe o d).1 from ho]
      exact hbad o

/-- C4 amended, at the list left by inserting 9, with a probe that reports `EBADF` for
every descriptor, mask `0` and the wildcard purpose. -/
theorem C4_eviction_correctness_witness :
    uniq (clist_insert [] 9 0).2 ∧
    passing_in_range (-1) 0 (-1) (clist_insert [] 9 0).2 ∧
    (∃ c ∈ (clist_insert [] 9 0).2, c.cn_fd = 9 ∧ passes_filter (-1) 0 (-1) c) ∧
    ∃ r, clist_fill_fdset (-1) (traced (det_probe (fun _ => select_fail EBADF))) ((), [])
        (clist_insert [] 9 0).2 ∅ 0 (-1) = some r ∧
      clist_fill_fdset (-1) (det_probe (fun _ => select_fail EBADF)) ()
        (clist_insert [] 9 0).2 ∅ 0 (-1) = some (r.map_os Prod.fst) ∧
      r.defined = true ∧ r.os.2 = [(9, select_fail EBADF)] ∧ r.conn_list = [] ∧
      r.set = ∅ := by
  obtain ⟨r, h1, h2, h3, -⟩ := C4_eviction_correctness (-1)
    (det_probe (fun _ => select_fail EBADF)) () (clist_insert [] 9 0).2 (by decide) ∅ 0 (-1) 9
    (by decide) (by decide)
  have hr : clist_fill_fdset (-1) (traced (det_probe (fun _ => select_fail EBADF))) ((), [])
      (clist_insert [] 9 0).2 ∅ 0 (-1) =
      some ⟨[], ∅, -1, ((), [(9, select_fail EBADF)]), true⟩ := rfl
  have e := hr.symm.trans h1
  cases e
  exact ⟨by decide, by decide, by decide, _, h1, h2, h3, rfl, rfl, rfl⟩

/-- C5 as stated fails in two ways. With a probe whose answers change during the call,
on the list with descriptors 5 and 7 and the filter `(0, MSGP_ALL)`: the first probe of
5 succeeds, yet after the restart that evicts 7 the second probe of 5 reports `EBADF`
and the entry of 5 is removed by the same call. And for a descriptor beyond the
capacity of an `fd_set`: the entry of 2000 passes the filter and its probe succeeds, but
the call hands 2000 to `FD_SET` and has no defined behaviour. -/
theorem C5_transient_errors_never_evict_counterexample :
    (passes_filter (-1) 0 (-1) ⟨5, 0, 0⟩ ∧ ¬ reports_invalid select_ok ∧
      ∃ r, clist_fill_fdset (-1) (traced fading_probe) (0, []) [⟨5, 0, 0⟩, ⟨7, 0, 0⟩] ∅ 0
          (-1) = some r ∧
        (5, select_ok) ∈ r.os.2 ∧ (⟨5, 0, 0⟩ : conn_node) ∉ r.conn_list) ∧
    (passes_filter (-1) 0 (-1) ⟨2000, 0, 0⟩ ∧
      ∃ r, clist_fill_fdset (-1) (det_probe (fun _ => select_ok)) () [⟨2000, 0, 0⟩] ∅ 0 (-1) =
          some r ∧ r.defined = false) :=
  ⟨⟨by decide, by decide,
      ⟨[], {5}, 5, (3, [(5, select_fail EBADF), (7, select_fail EBADF), (5, select_ok)]),
        true⟩, rfl, by decide, by decide⟩,
    ⟨by decide, ⟨[⟨2000, 0, 0⟩], {2000}, 2000, (), false⟩, rfl, rfl⟩⟩

/-- C5 (transient probe errors never evict), amended. For every list in which each
entry that passes the filter has its descriptor within the capacity of an `fd_set`, and
for every probe, the call has a defined behaviour, and an entry that passes the filters
and that no probe made by the call reports invalid (each of them succeeds, or fails
with an error other than `EBADF` and `EINVAL`) is still in the list after the call, the
same node with the same flags and purpose, and its descriptor is in the returned set; on
a list with uniqueness `clist_get_flags` and `clist_get_purpose` then return its flags
and purpose. A probe that never reports the descriptor invalid, whatever its state, is
such a probe. The log is the list of the probes made by the call, which is the call
itself with the log attached. -/
theorem C5_transient_errors_never_evict (MSGP_ALL : Int) {σ : Type}
    (probe : σ → Int → select_result × σ) (os : σ) (l : List conn_node)
    (set : Finset Int) (F P : Int) (hv : passing_in_range MSGP_ALL F P l)
    (c : conn_node) (hc : c ∈ l) (hpass : passes_filter MSGP_ALL F P c) :
    ∃ r, clist_fill_fdset MSGP_ALL (traced probe) (os, []) l set F P = some r ∧
      clist_fill_fdset MSGP_ALL probe os l set F P = some (r.map_os Prod.fst) ∧
      r.defined = true ∧
      ((∀ res, (c.cn_fd, res) ∈ r.os.2 → ¬ reports_invalid res) →
        c ∈ r.conn_list ∧ c.cn_fd ∈ r.set ∧
        (uniq l → (clist_get_flags r.conn_list c.cn_fd).1 = c.cn_flags ∧
          (clist_get_purpose r.conn_list c.cn_fd).1 = c.cn_purpose)) ∧
      ((∀ o, ¬ reports_invalid (probe o c.cn_fd).1) →
        ∀ res, (c.cn_fd, res) ∈ r.os.2 → ¬ reports_invalid res) := by
  obtain ⟨r, hr⟩ := fill_fdset_returns MSGP_ALL (traced probe) (os, []) l set F P
  obtain ⟨hans, -, hrem, -⟩ := traced_fill_spec MSGP_ALL probe os l set F P r hr
  obtain ⟨hsub, -, hall, -⟩ :=
    fill_fdset_spec MSGP_ALL (traced probe) (os, []) l set F P r hr
  refine ⟨r, hr, traced_fill_sim MSGP_ALL probe os l set F P r hr,
    (fill_fdset_defined_iff MSGP_ALL (traced probe) (os, []) l set F P r hr).2 hv, ?_, ?_⟩
  · intro hgood
    have hmem : c ∈ r.conn_list := by
      by_contra hn
      obtain ⟨e, he, hed, hbad⟩ := hrem c hc hn
      apply hgood e.2 _ hbad
      rw [← hed]
      exact he
    refine ⟨hmem, (hall c hmem hpass).1, ?_⟩
    intro hu
    have hfind := find_of_mem (uniq_sublist hsub hu) hmem
    rw [get_flags_present hfind, get_purpose_present hfind]
    exact ⟨rfl, rfl⟩
  · intro hgood res hmem
    obtain ⟨o, ho⟩ := hans (c.cn_fd, res) hmem
    rw [show res = (probe o c.cn_fd).1 from ho]
    exact hgood o

/-- C5 amended, at the list `[(5, flags 1), (9, flags 0)]` with a probe that fails with
`EINTR` (4) for 5 and with `EBADF` for every other descriptor. -/
theorem C5_transient_errors_never_evict_witness :
    passing_in_range (-1) 0 (-1) [⟨5, 1, 0⟩, ⟨9, 0, 0⟩] ∧
    (⟨5, 1, 0⟩ : conn_node) ∈ [(⟨5, 1, 0⟩ : conn_node), ⟨9, 0, 0⟩] ∧
    passes_filter (-1) 0 (-1) ⟨5, 1, 0⟩ ∧
    ∃ r, clist_fill_fdset (-1)
        (traced (det_probe (fun fd => if fd = 5 then select_fail 4 else select_fail EBADF)))
        ((), []) [⟨5, 1, 0⟩, ⟨9, 0, 0⟩] ∅ 0 (-1) = some r ∧
      r.defined = true ∧ r.conn_list = [⟨5, 1, 0⟩] ∧ r.set = {5} := by
  obtain ⟨r, h1, -, h3, -⟩ := C5_transient_errors_never_evict (-1)
    (det_probe (fun fd => if fd = 5 then select_fail 4 else select_fail EBADF)) ()
    [⟨5, 1, 0⟩, ⟨9, 0, 0⟩] ∅ 0 (-1) (by decide) ⟨5, 1, 0⟩ (by decide) (by decide)
  have hr : clist_fill_fdset (-1)
      (traced (det_probe (fun fd => if fd = 5 then select_fail 4 else select_fail EBADF)))
      ((), []) [⟨5, 1, 0⟩, ⟨9, 0, 0⟩] ∅ 0 (-1) =
      some ⟨[⟨5, 1, 0⟩], {5}, 5,
        ((), [(5, select_fail 4), (9, select_fail EBADF), (5, select_fail 4)]), true⟩ := rfl
  have e := hr.symm.trans h1
  cases e
  exact ⟨by decide, by decide, by decide, _, h1, h3, rfl, rfl⟩

theorem fd_valid_bounds {fd : Int} (h : fd_valid fd = true) : 0 ≤ fd ∧ fd < FD_SETSIZE := by
  simpa [fd_valid] using h

theorem nfds_probe_honours : honours_nfds (det_probe nfds_probe) := by
  intro o fd h
  simp [det_probe, nfds_probe, h, reports_invalid, select_fail]

/-- With a probe that does with a negative first argument what `select` does (the call
passes `cn_fd + 1`, and `select` fails with `EINVAL` when that is negative), no descriptor
below `-1` is handed to `FD_SET(curr->cn_fd, set)`, whatever the list: such an entry is
removed. The value computed in `max` is then the greatest descriptor handed to that
`FD_SET`, and `-1` when there was none. -/
theorem fill_max_honours_nfds (MSGP_ALL : Int) {σ : Type}
    (probe : σ → Int → select_result × σ) (hsel : honours_nfds probe) (os : σ)
    (l : List conn_node) (F P : Int) (r : fill_result σ)
    (hr : clist_fill_fdset MSGP_ALL probe os l ∅ F P = some r) :
    (r.set.Nonempty → r.max ∈ r.set ∧ ∀ x ∈ r.set, x ≤ r.max) ∧
      (r.set = ∅ → r.max = -1) ∧ ∀ x ∈ r.set, -1 ≤ x := by
  obtain ⟨h1, h2, -⟩ := fill_max_spec MSGP_ALL probe os l F P r hr
  obtain ⟨-, hg, -, -⟩ := fill_fdset_spec MSGP_ALL probe os l ∅ F P r hr
  have hlow : ∀ x ∈ r.set, -1 ≤ x := by
    intro x hx
    rcases hg.2.1 x hx with h | h
    · exact absurd h (Finset.not_mem_empty x)
    · obtain ⟨-, -, -, -, o, hgood⟩ := h
      by_contra hlt
      exact hgood (hsel o x (by omega))
  refine ⟨?_, ?_, hlow⟩
  · rintro ⟨x, hx⟩
    refine ⟨?_, h2⟩
    rcases h1 with h | h
    · have hxm := h2 x hx
      have hxl := hlow x hx
      have hxe : x = r.max := by omega
      exact hxe ▸ hx
    · exact h
  · intro hempty
    rcases h1 with h | h
    · exact h
    · rw [hempty] at h
      exact absurd h (Finset.not_mem_empty _)

/-- C6 as stated fails for a descriptor beyond the capacity of an `fd_set`. In the list
with descriptors 3 and 1030 both entries pass the filter `(0, MSGP_ALL)` and `select`
accepts both; the call hands 1030 to `FD_SET(curr->cn_fd, &test_fds)` and to
`FD_SET(curr->cn_fd, set)`, which write beyond the `FD_SETSIZE` bits of the sets: the
call has no defined behaviour, 1030 is not a member that the caller's set can hold, and
nothing says which value the call returns. -/
theorem C6_maximum_descriptor_counterexample :
    passes_filter (-1) 0 (-1) ⟨1030, 0, 0⟩ ∧ fd_valid 1030 = false ∧
    ¬ passing_in_range (-1) 0 (-1) [⟨3, 0, 0⟩, ⟨1030, 0, 0⟩] ∧
    ∃ r, clist_fill_fdset (-1) (det_probe (fun _ => select_ok)) ()
        [⟨3, 0, 0⟩, ⟨1030, 0, 0⟩] ∅ 0 (-1) = some r ∧ r.defined = false :=
  ⟨by decide, by decide, by decide,
    ⟨[⟨3, 0, 0⟩, ⟨1030, 0, 0⟩], {1030, 3}, 1030, (), false⟩, rfl, rfl⟩

/-- C6 (maximum descriptor), amended. For every list in which each entry that passes the
filter has its descriptor within the capacity of an `fd_set`, every filter and every
probe, `clist_fill_fdset` returns, with a defined behaviour, and the value it returns is
the greatest of the descriptors it added to the set (those it handed to
`FD_SET(curr->cn_fd, set)`: the set it builds from the empty set), and `-1` when it
added none. The descriptors added are from `0` to `FD_SETSIZE - 1`. The caller's set has
no influence on the value returned. -/
theorem C6_maximum_descriptor (MSGP_ALL : Int) {σ : Type}
    (probe : σ → Int → select_result × σ) (os : σ)
    (l : List conn_node) (F P : Int) (hv : passing_in_range MSGP_ALL F P l) :
    ∃ r, clist_fill_fdset MSGP_ALL probe os l ∅ F P = some r ∧
      r.defined = true ∧
      (∀ x ∈ r.set, 0 ≤ x ∧ x < FD_SETSIZE) ∧
      (r.set.Nonempty → r.max ∈ r.set ∧ ∀ x ∈ r.set, x ≤ r.max) ∧
      (r.set = ∅ → r.max = -1) ∧
      ∀ S0 : Finset Int, ∃ r1, clist_fill_fdset MSGP_ALL probe os l S0 F P = some r1 ∧
        r1.max = r.max ∧ r1.set = S0 ∪ r.set ∧ r1.conn_list = r.conn_list ∧
        r1.defined = true := by
  obtain ⟨r, hr⟩ := fill_fdset_returns MSGP_ALL probe os l ∅ F P
  obtain ⟨h1, h2, -⟩ := fill_max_spec MSGP_ALL probe os l F P r hr
  obtain ⟨-, hg, -, -⟩ := fill_fdset_spec MSGP_ALL probe os l ∅ F P r hr
  have hdef : r.defined = true :=
    (fill_fdset_defined_iff MSGP_ALL probe os l ∅ F P r hr).2 hv
  have hrange : ∀ x ∈ r.set, 0 ≤ x ∧ x < FD_SETSIZE := by
    intro x hx
    rcases hg.2.1 x hx with h | h
    · exact absurd h (Finset.not_mem_empty x)
    · obtain ⟨c, hc, hpc, hfd, -⟩ := h
      rw [← hfd]
      exact fd_valid_bounds (hv c hc hpc)
  refine ⟨r, hr, hdef, hrange, ?_, ?_, ?_⟩
  · rintro ⟨x, hx⟩
    refine ⟨?_, h2⟩
    rcases h1 with h | h
    · have hxm := h2 x hx
      have hxl := (hrange x hx).1
      omega
    · exact h
  · intro hempty
    rcases h1 with h | h
    · exact h
    · rw [hempty] at h
      exact absurd h (Finset.not_mem_empty _)
  · intro S0
    refine ⟨r.with_more S0, ?_, rfl, rfl, rfl, hdef⟩
    rw [fill_fdset_frame, hr]
    rfl

/-- C6, at the list with descriptors 3, 8 and 6 under the probe that reports 8 invalid:
8 is evicted, the scan restarts, the set is `{3, 6}` and the call returns 6; and at the
list holding 4 alone under the probe that reports every descriptor invalid, where the
set is empty and the call returns -1. -/
theorem C6_maximum_descriptor_witness :
    passing_in_range (-1) 0 (-1) [⟨3, 0, 0⟩, ⟨8, 0, 0⟩, ⟨6, 0, 0⟩] ∧
    passing_in_range (-1) 0 (-1) [⟨4, 0, 0⟩] ∧
    (∃ r, clist_fill_fdset (-1)
        (det_probe (fun fd => if fd = 8 then select_fail EBADF else select_ok)) ()
        [⟨3, 0, 0⟩, ⟨8, 0, 0⟩, ⟨6, 0, 0⟩] ∅ 0 (-1) = some r ∧
      r.defined = true ∧ r.set = {3, 6} ∧ r.max = 6 ∧ r.max ∈ r.set) ∧
    (∃ r, clist_fill_fdset (-1) (det_probe (fun _ => select_fail EBADF)) ()
        [⟨4, 0, 0⟩] ∅ 0 (-1) = some r ∧
      r.defined = true ∧ r.set = ∅ ∧ r.max = -1) := by
  obtain ⟨r, h1, hd1, -, hmax, -⟩ := C6_maximum_descriptor (-1)
    (det_probe (fun fd => if fd = 8 then select_fail EBADF else select_ok)) ()
    [⟨3, 0, 0⟩, ⟨8, 0, 0⟩, ⟨6, 0, 0⟩] 0 (-1) (by decide)
  obtain ⟨r2, h2, hd2, -, -, hempty, -⟩ := C6_maximum_descriptor (-1)
    (det_probe (fun _ => select_fail EBADF)) () [⟨4, 0, 0⟩] 0 (-1) (by decide)
  have hr : clist_fill_fdset (-1)
      (det_probe (fun fd => if fd = 8 then select_fail EBADF else select_ok)) ()
      [⟨3, 0, 0⟩, ⟨8, 0, 0⟩, ⟨6, 0, 0⟩] ∅ 0 (-1) =
      some ⟨[⟨3, 0, 0⟩, ⟨6, 0, 0⟩], {6, 3}, 6, (), true⟩ := rfl
  have hr2 : clist_fill_fdset (-1) (det_probe (fun _ => select_fail EBADF)) ()
      [⟨4, 0, 0⟩] ∅ 0 (-1) = some ⟨[], ∅, -1, (), true⟩ := rfl
  have e := hr.symm.trans h1
  have e2 := hr2.symm.trans h2
  cases e
  cases e2
  exact ⟨by decide, by decide, ⟨_, h1, hd1, by decide, rfl, (hmax ⟨3, by decide⟩).1⟩,
    ⟨_, h2, hd2, rfl, hempty rfl⟩⟩

theorem next_set_defined_first {l1 l2 : List conn_node} {c : conn_node} {set : Finset Int}
    (h1 : ∀ a ∈ l1, a.cn_fd ∉ set) (hv1 : ∀ a ∈ l1, fd_valid a.cn_fd = true)
    (hc : c.cn_fd ∈ set) (hvc : fd_valid c.cn_fd = true) :
    next_set_defined (l1 ++ c :: l2) set = true := by
  induction l1 with
  | nil => simp [next_set_defined, hc, hvc]
  | cons a rest ih =>
    rw [List.cons_append, next_set_defined, hv1 a (List.mem_cons_self _ _),
      if_neg (h1 a (List.mem_cons_self _ _))]
    simpa using ih (fun b hb => h1 b (List.mem_cons_of_mem _ hb))
      (fun b hb => hv1 b (List.mem_cons_of_mem _ hb))

theorem next_set_defined_of_range {l : List conn_node} (h : all_in_range l)
    (set : Finset Int) : next_set_defined l set = true := by
  induction l with
  | nil => rfl
  | cons c rest ih =>
    rw [next_set_defined, h c (List.mem_cons_self _ _)]
    by_cases hc : c.cn_fd ∈ set
    · simp [hc]
    · simpa [hc] using ih (fun a ha => h a (List.mem_cons_of_mem _ ha))

/-- A call that finds no registered descriptor in the set hands every node to
`FD_ISSET`: it is defined only if every descriptor is within the capacity. -/
theorem all_in_range_of_defined {l : List conn_node} {set : Finset Int}
    (h : ∀ c ∈ l, c.cn_fd ∉ set) (hd : next_set_defined l set = true) : all_in_range l := by
  induction l with
  | nil => intro c hc; exact absurd hc (List.not_mem_nil c)
  | cons c rest ih =>
    rw [next_set_defined, if_neg (h c (List.mem_cons_self _ _))] at hd
    simp only [Bool.and_eq_true] at hd
    intro a ha
    rcases List.mem_cons.1 ha with rfl | ha
    · exact hd.1
    · exact ih (fun b hb => h b (List.mem_cons_of_mem _ hb)) hd.2 a ha

theorem drain_defined_of_range {l : List conn_node} (h : all_in_range l) :
    ∀ (n : Nat) (set : Finset Int), drain_defined l n set = true := by
  intro n
  induction n with
  | zero => intro set; rfl
  | succ n ih =>
    intro set
    rw [drain_defined, next_set_defined_of_range h, ih]
    rfl

/-- C7 as stated fails for a registered descriptor outside the capacity of an `fd_set`.
On the list with descriptors -5 and 59, which has uniqueness, and the set `{59}`, the
claim has the first call return 59; the call starts with `FD_ISSET(-5, set)`, which
reaches outside the set, and has no defined behaviour. -/
theorem C7_drain_exhaustion_counterexample :
    uniq [⟨-5, 0, 0⟩, ⟨59, 0, 0⟩] ∧
    ({59} : Finset Int) ∩ (List.map conn_node.cn_fd [⟨-5, 0, 0⟩, ⟨59, 0, 0⟩]).toFinset = {59} ∧
    fd_valid (-5) = false ∧
    next_set_defined [⟨-5, 0, 0⟩, ⟨59, 0, 0⟩] {59} = false ∧
    drain_defined [⟨-5, 0, 0⟩, ⟨59, 0, 0⟩] 1 {59} = false := by
  decide

/-- C7 (drain exhaustion), amended. On a list with uniqueness whose descriptors are all
within the capacity of an `fd_set` (from `0` to `FD_SETSIZE - 1`) and for every finite
set `S`, every call of `clist_next_set` has a defined behaviour; the first
`|S ∩ registry|` calls on the same set return the registered members of `S`, each
exactly once (in list order), and leave in the set exactly the members of `S` that are
not registered; every call after that returns `-1` and leaves the set as it is. Such a
call hands every node to `FD_ISSET`, so it is defined only if all the descriptors are
within the capacity. -/
theorem C7_drain_exhaustion (l : List conn_node) (hu : uniq l) (hv : all_in_range l)
    (S : Finset Int) :
    (∀ n : Nat, drain_defined l n S = true) ∧
    (drain l (S ∩ (l.map conn_node.cn_fd).toFinset).card S).1 =
      (l.map conn_node.cn_fd).filter (fun d => decide (d ∈ S)) ∧
    (drain l (S ∩ (l.map conn_node.cn_fd).toFinset).card S).1.Nodup ∧
    (drain l (S ∩ (l.map conn_node.cn_fd).toFinset).card S).1.toFinset =
      S ∩ (l.map conn_node.cn_fd).toFinset ∧
    (drain l (S ∩ (l.map conn_node.cn_fd).toFinset).card S).2 =
      S \ (l.map conn_node.cn_fd).toFinset ∧
    (∀ n : Nat, drain l ((S ∩ (l.map conn_node.cn_fd).toFinset).card + n) S =
      ((l.map conn_node.cn_fd).filter (fun d => decide (d ∈ S)) ++ List.replicate n (-1),
        S \ (l.map conn_node.cn_fd).toFinset)) ∧
    clist_next_set l (S \ (l.map conn_node.cn_fd).toFinset) =
      (-1, S \ (l.map conn_node.cn_fd).toFinset) ∧
    (∀ l1 : List conn_node,
      next_set_defined l1 (S \ (l1.map conn_node.cn_fd).toFinset) = true ↔
        all_in_range l1) := by
  have hk := filter_mem_card hu S
  have h0 := drain_spec l hu S 0
  rw [hk] at h0
  simp only [Nat.add_zero, List.replicate_zero, List.append_nil] at h0
  have hnone : ∀ l1 : List conn_node, ∀ c ∈ l1,
      c.cn_fd ∉ S \ (l1.map conn_node.cn_fd).toFinset := by
    intro l1 c hc hmem
    exact (Finset.mem_sdiff.1 hmem).2 (List.mem_toFinset.2 (List.mem_map_of_mem _ hc))
  refine ⟨fun n => drain_defined_of_range hv n S, by rw [h0], ?_, ?_, by rw [h0], ?_, ?_, ?_⟩
  · rw [h0]
    exact List.Nodup.filter _ hu
  · rw [h0]
    ext x
    simp only [List.mem_toFinset, List.mem_filter, decide_eq_true_eq, Finset.mem_inter]
    tauto
  · intro n
    have := drain_spec l hu S n
    rw [hk] at this
    exact this
  · exact next_set_none (hnone l)
  · intro l1
    exact ⟨all_in_range_of_defined (hnone l1), fun h => next_set_defined_of_range h _⟩

/-- C7 amended, at the list with descriptors 3, 2, 1 (in list order) and the set
`{2, 3, 9}`: two calls return 3 and 2 and leave `{9}`. -/
theorem C7_drain_exhaustion_witness :
    uniq [⟨3, 0, 0⟩, ⟨2, 0, 0⟩, ⟨1, 0, 0⟩] ∧
    all_in_range [⟨3, 0, 0⟩, ⟨2, 0, 0⟩, ⟨1, 0, 0⟩] ∧
    drain_defined [⟨3, 0, 0⟩, ⟨2, 0, 0⟩, ⟨1, 0, 0⟩] 3 {2, 3, 9} = true ∧
    (drain [⟨3, 0, 0⟩, ⟨2, 0, 0⟩, ⟨1, 0, 0⟩] 2 {2, 3, 9}).1 = [3, 2] ∧
    (drain [⟨3, 0, 0⟩, ⟨2, 0, 0⟩, ⟨1, 0, 0⟩] 2 {2, 3, 9}).2 = {9} :=
  by
  have hcard : (({2, 3, 9} : Finset Int) ∩ (List.map conn_node.cn_fd
      [⟨3, 0, 0⟩, ⟨2, 0, 0⟩, ⟨1, 0, 0⟩]).toFinset).card = 2 := by decide
  have h := C7_drain_exhaustion [⟨3, 0, 0⟩, ⟨2, 0, 0⟩, ⟨1, 0, 0⟩] (by decide) (by decide)
    {2, 3, 9}
  rw [hcard] at h
  exact ⟨by decide, by decide, h.1 3, h.2.1.trans (by decide), h.2.2.2.2.1.trans (by decide)⟩

/-- C8 as stated fails for a registered descriptor outside the capacity of an `fd_set`.
On the list with descriptors 1500 and 2 and the set `{2}`, the first entry whose
descriptor is in the set is that of 2; the call starts with `FD_ISSET(1500, set)`,
which reaches outside the set, and has no defined behaviour. -/
theorem C8_drain_order_counterexample :
    (∀ a ∈ [(⟨1500, 0, 0⟩ : conn_node)], a.cn_fd ∉ ({2} : Finset Int)) ∧
    (⟨2, 0, 0⟩ : conn_node).cn_fd ∈ ({2} : Finset Int) ∧
    fd_valid 1500 = false ∧
    next_set_defined ([⟨1500, 0, 0⟩] ++ ⟨2, 0, 0⟩ :: []) {2} = false := by
  decide

/-- C8 (drain order), amended. One call of `clist_next_set` returns the descriptor of
the first entry, in list order, whose descriptor is in the set, and removes that
descriptor and no other from the set, when the descriptors of that entry and of the
entries before it are within the capacity of an `fd_set`; when no registered descriptor
is in the set and all the descriptors are within the capacity it returns `-1` and
leaves the set as it is. In both cases the call has a defined behaviour. After
inserting 1, 2, 3 in this order (with any flags), three calls on `{2, 3}` return 3, then
2, then `-1`. -/
theorem C8_drain_order :
    (∀ (l1 l2 : List conn_node) (c : conn_node) (S : Finset Int),
      (∀ a ∈ l1, a.cn_fd ∉ S) → c.cn_fd ∈ S →
      (∀ a ∈ l1, fd_valid a.cn_fd = true) → fd_valid c.cn_fd = true →
      clist_next_set (l1 ++ c :: l2) S = (c.cn_fd, S.erase c.cn_fd) ∧
      next_set_defined (l1 ++ c :: l2) S = true) ∧
    (∀ (l : List conn_node) (S : Finset Int),
      (∀ c ∈ l, c.cn_fd ∉ S) → all_in_range l →
      clist_next_set l S = (-1, S) ∧ next_set_defined l S = true) ∧
    (∀ f1 f2 f3 : Int,
      drain (clist_insert (clist_insert (clist_insert [] 1 f1).2 2 f2).2 3 f3).2 3 {2, 3} =
        ([3, 2, -1], ∅) ∧
      drain_defined (clist_insert (clist_insert (clist_insert [] 1 f1).2 2 f2).2 3 f3).2 3
        {2, 3} = true) := by
  refine ⟨fun l1 l2 c S h1 hc hv1 hvc =>
      ⟨next_set_first h1 hc, next_set_defined_first h1 hv1 hc hvc⟩,
    fun l S h hv => ⟨next_set_none h, next_set_defined_of_range hv S⟩, ?_⟩
  intro f1 f2 f3
  have hl : (clist_insert (clist_insert (clist_insert [] 1 f1).2 2 f2).2 3 f3).2 =
      [⟨3, f3, 0⟩, ⟨2, f2, 0⟩, ⟨1, f1, 0⟩] := by
    simp [insert_list, List.eraseP_cons, has_fd]
  rw [hl]
  have hrange : all_in_range [(⟨3, f3, 0⟩ : conn_node), ⟨2, f2, 0⟩, ⟨1, f1, 0⟩] := by
    intro c hc
    simp only [List.mem_cons, List.mem_singleton, List.not_mem_nil, or_false] at hc
    rcases hc with rfl | rfl | rfl <;> rfl
  have e1 : clist_next_set [⟨3, f3, 0⟩, ⟨2, f2, 0⟩, ⟨1, f1, 0⟩] {2, 3} = (3, {2}) := by
    rw [next_set_hit (show (conn_node.mk 3 f3 0).cn_fd ∈ ({2, 3} : Finset Int) by simp)]
    show ((3 : Int), ({2, 3} : Finset Int).erase 3) = (3, {2})
    decide
  have e2 : clist_next_set [⟨3, f3, 0⟩, ⟨2, f2, 0⟩, ⟨1, f1, 0⟩] {2} = (2, ∅) := by
    rw [next_set_skip (show (conn_node.mk 3 f3 0).cn_fd ∉ ({2} : Finset Int) by simp),
      next_set_hit (show (conn_node.mk 2 f2 0).cn_fd ∈ ({2} : Finset Int) by simp)]
    show ((2 : Int), ({2} : Finset Int).erase 2) = (2, ∅)
    decide
  have e3 : clist_next_set [⟨3, f3, 0⟩, ⟨2, f2, 0⟩, ⟨1, f1, 0⟩] ∅ = (-1, ∅) :=
    next_set_none (fun _ _ => Finset.not_mem_empty _)
  exact ⟨by simp only [drain, e1, e2, e3], drain_defined_of_range hrange 3 _⟩

/-- C8 amended, at the list with descriptors 3, 2, 1 and the set `{2}`, and at the set
`{7}`. -/
theorem C8_drain_order_witness :
    (∀ a ∈ [(⟨3, 0, 0⟩ : conn_node)], a.cn_fd ∉ ({2} : Finset Int)) ∧
    (⟨2, 0, 0⟩ : conn_node).cn_fd ∈ ({2} : Finset Int) ∧
    (∀ a ∈ [(⟨3, 0, 0⟩ : conn_node)], fd_valid a.cn_fd = true) ∧
    fd_valid (⟨2, 0, 0⟩ : conn_node).cn_fd = true ∧
    (clist_next_set ([⟨3, 0, 0⟩] ++ ⟨2, 0, 0⟩ :: [⟨1, 0, 0⟩]) {2} =
        ((⟨2, 0, 0⟩ : conn_node).cn_fd,
          ({2} : Finset Int).erase (⟨2, 0, 0⟩ : conn_node).cn_fd) ∧
      next_set_defined ([⟨3, 0, 0⟩] ++ ⟨2, 0, 0⟩ :: [⟨1, 0, 0⟩]) {2} = true) ∧
    (∀ c ∈ [(⟨3, 0, 0⟩ : conn_node), ⟨2, 0, 0⟩, ⟨1, 0, 0⟩], c.cn_fd ∉ ({7} : Finset Int)) ∧
    all_in_range [⟨3, 0, 0⟩, ⟨2, 0, 0⟩, ⟨1, 0, 0⟩] ∧
    (clist_next_set [⟨3, 0, 0⟩, ⟨2, 0, 0⟩, ⟨1, 0, 0⟩] {7} = (-1, {7}) ∧
      next_set_defined [⟨3, 0, 0⟩, ⟨2, 0, 0⟩, ⟨1, 0, 0⟩] {7} = true) :=
  ⟨by decide, by decide, by decide, by decide,
    C8_drain_order.1 [⟨3, 0, 0⟩] [⟨1, 0, 0⟩] ⟨2, 0, 0⟩ {2} (by decide) (by decide)
      (by decide) (by decide),
    by decide, by decide,
    C8_drain_order.2.1 [⟨3, 0, 0⟩, ⟨2, 0, 0⟩, ⟨1, 0, 0⟩] {7} (by decide) (by decide)⟩

/-- C16 as stated fails for a descriptor beyond the capacity of an `fd_set`. The entry
of descriptor 1219 passes the filter `(0, MSGP_ALL)`; the call hands 1219 to
`FD_SET(curr->cn_fd, &test_fds)`, which writes beyond the local `test_fds` of
`FD_SETSIZE` bits: the call has no defined behaviour, and nothing says that it
returns. -/
theorem C16_scan_terminates_counterexample :
    passes_filter (-1) 0 (-1) ⟨1219, 0, 0⟩ ∧ fd_valid 1219 = false ∧
    ¬ passing_in_range (-1) 0 (-1) [⟨1219, 0, 0⟩] ∧
    ∃ r, clist_fill_fdset (-1) (det_probe (fun _ => select_ok)) () [⟨1219, 0, 0⟩] ∅ 0 (-1) =
        some r ∧ r.defined = false :=
  ⟨by decide, by decide, by decide, ⟨[⟨1219, 0, 0⟩], {1219}, 1219, (), false⟩, rfl, rfl⟩

/-- C16 (the scan-restart loop terminates), amended. For every list in which each entry
that passes the filter has its descriptor within the capacity of an `fd_set`, every
filter, caller's set and probe, whatever it answers, `clist_fill_fdset` returns, with a
defined behaviour: `l.length + 1` runs of the `for` loop are enough, and any larger
allowance gives the same result. The number of restarts is the number of entries
removed, so at most the number of entries at entry; a probe that reports every
descriptor invalid, under the filter that lets every entry pass, empties the list with
exactly that many restarts. -/
theorem C16_scan_terminates (MSGP_ALL : Int) {σ : Type}
    (probe : σ → Int → select_result × σ) (os : σ) (l : List conn_node)
    (set : Finset Int) (F P : Int) (hv : passing_in_range MSGP_ALL F P l) :
    ∃ r n, clist_fill_fdset MSGP_ALL probe os l set F P = some r ∧
      r.defined = true ∧
      fill_restarts MSGP_ALL probe F P (l.length + 1) l set (-1) os true = some n ∧
      n ≤ l.length ∧
      n + r.conn_list.length = l.length ∧
      (∀ fuel, l.length < fuel →
        fill_top MSGP_ALL probe F P fuel l set (-1) os true = some r ∧
        fill_restarts MSGP_ALL probe F P fuel l set (-1) os true = some n) ∧
      ((∀ o d, reports_invalid (probe o d).1) → F = 0 → P = MSGP_ALL →
        r.conn_list = [] ∧ n = l.length) := by
  obtain ⟨r, n, hr, hn, hsum⟩ :=
    fill_top_restarts MSGP_ALL probe F P (l.length + 1) l set (-1) os true
      (Nat.lt_succ_self _)
  refine ⟨r, n, hr, (fill_fdset_defined_iff MSGP_ALL probe os l set F P r hr).2 hv, hn,
    by omega, hsum, ?_, ?_⟩
  · intro fuel hf
    exact ⟨fill_top_fuel MSGP_ALL probe F P _ l set (-1) os true r hr fuel (by omega),
      fill_restarts_fuel MSGP_ALL probe F P _ l set (-1) os true n hn fuel (by omega)⟩
  · intro hbad hF hP
    obtain ⟨-, -, hall, -⟩ := fill_fdset_spec MSGP_ALL probe os l set F P r hr
    have hnil : r.conn_list = [] := by
      apply List.eq_nil_iff_forall_not_mem.2
      intro c hc
      obtain ⟨-, o, hgood⟩ := hall c hc ⟨Or.inl hF, Or.inl hP⟩
      exact hgood (hbad o c.cn_fd)
    refine ⟨hnil, ?_⟩
    rw [hnil] at hsum
    simpa using hsum

/-- C16 amended, at a list of three entries with a probe that fails with `EBADF` for
every descriptor: two of the entries pass the filter, the call returns after two
restarts. -/
theorem C16_scan_terminates_witness :
    passing_in_range (-1) 1 (-1) [⟨3, 1, 0⟩, ⟨2, 0, 0⟩, ⟨1, 1, 0⟩] ∧
    ∃ r n, clist_fill_fdset (-1) (det_probe (fun _ => select_fail EBADF)) ()
        [⟨3, 1, 0⟩, ⟨2, 0, 0⟩, ⟨1, 1, 0⟩] ∅ 1 (-1) = some r ∧
      fill_restarts (-1) (det_probe (fun _ => select_fail EBADF)) 1 (-1) 4
        [⟨3, 1, 0⟩, ⟨2, 0, 0⟩, ⟨1, 1, 0⟩] ∅ (-1) () true = some n ∧
      r.defined = true ∧ n ≤ 3 ∧ r.conn_list = [⟨2, 0, 0⟩] ∧ n = 2 := by
  obtain ⟨r, n, hr, hd, hn, hle, -, -, -⟩ :=
    C16_scan_terminates (-1) (det_probe (fun _ => select_fail EBADF)) ()
      [⟨3, 1, 0⟩, ⟨2, 0, 0⟩, ⟨1, 1, 0⟩] ∅ 1 (-1) (by decide)
  have hr2 : clist_fill_fdset (-1) (det_probe (fun _ => select_fail EBADF)) ()
      [⟨3, 1, 0⟩, ⟨2, 0, 0⟩, ⟨1, 1, 0⟩] ∅ 1 (-1) =
      some ⟨[⟨2, 0, 0⟩], ∅, -1, (), true⟩ := rfl
  have hn2 : fill_restarts (-1) (det_probe (fun _ => select_fail EBADF)) 1 (-1) 4
      [⟨3, 1, 0⟩, ⟨2, 0, 0⟩, ⟨1, 1, 0⟩] ∅ (-1) () true = some 2 := rfl
  have e1 := hr2.symm.trans hr
  have e2 := hn2.symm.trans hn
  cases e1
  cases e2
  exact ⟨by decide, _, _, hr2, hn2, hd, hle, rfl, rfl⟩

/-- C18 as stated fails for a descriptor beyond the capacity of an `fd_set`. With
`S0 = {3}` and the entry of descriptor 1030, which passes the filter and whose probe
succeeds, the claim has the call leave `{3, 1030}`; the call hands 1030 to `FD_SET` on
sets of `FD_SETSIZE` bits and has no defined behaviour. -/
theorem C18_set_only_grows_counterexample :
    passes_filter (-1) 0 (-1) ⟨1030, 0, 0⟩ ∧ ¬ reports_invalid select_ok ∧
    fd_valid 1030 = false ∧
    ∃ r, clist_fill_fdset (-1) (det_probe (fun _ => select_ok)) () [⟨1030, 0, 0⟩] {3} 0
        (-1) = some r ∧ r.defined = false :=
  ⟨by decide, by decide, by decide, ⟨[⟨1030, 0, 0⟩], {1030, 3}, 1030, (), false⟩, rfl, rfl⟩

/-- C18 (the set builder only adds to the caller's set), amended. For every list in
which each entry that passes the filter has its descriptor within the capacity of an
`fd_set`, every filter, probe and initial set `S0`, `clist_fill_fdset` has a defined
behaviour, does what it does from the empty set, and leaves `S0` united with the
descriptors it selects (the set it builds from the empty set; with a probe answering by
descriptor, the descriptors of the entries that pass the filter and are not reported
invalid). No member of `S0` leaves the set, not even one whose entry the call evicts:
with 9 registered, in `S0` and reported invalid, 9 is evicted and still in the set. A
restart resets neither the set nor `max`: the loop goes on from the set and `max`
reached, which have only grown; with a probe that lets 5 pass once and then reports it
invalid, 5 is evicted after a restart and the call still returns the set `{5}` and
`max = 5`. -/
theorem C18_set_only_grows (MSGP_ALL : Int) :
    (∀ (σ : Type) (probe : σ → Int → select_result × σ) (os : σ) (l : List conn_node)
        (S0 : Finset Int) (F P : Int), passing_in_range MSGP_ALL F P l →
      ∃ r r0, clist_fill_fdset MSGP_ALL probe os l S0 F P = some r ∧
        clist_fill_fdset MSGP_ALL probe os l ∅ F P = some r0 ∧
        r.defined = true ∧ r0.defined = true ∧
        r.set = S0 ∪ r0.set ∧ S0 ⊆ r.set ∧
        r.conn_list = r0.conn_list ∧ r.max = r0.max ∧ r.os = r0.os) ∧
    (∀ (l : List conn_node) (S0 : Finset Int) (F P : Int) (p : Int → select_result),
      passing_in_range MSGP_ALL F P l →
      ∃ r, clist_fill_fdset MSGP_ALL (det_probe p) () l S0 F P = some r ∧
        r.defined = true ∧
        r.set = S0 ∪ ((l.filter (fun c => decide (¬ reports_invalid (p c.cn_fd) ∧
          passes_filter MSGP_ALL F P c))).map conn_node.cn_fd).toFinset) ∧
    (∀ (σ : Type) (probe : σ → Int → select_result × σ) (F P : Int) (fuel : Nat)
        (head : List conn_node) (set : Finset Int) (max : Int) (os : σ) (ok : Bool)
        (head1 : List conn_node) (set1 : Finset Int) (max1 : Int) (os1 : σ) (ok1 : Bool),
      fill_scan MSGP_ALL probe F P head head set max os ok =
        scan_end.top head1 set1 max1 os1 ok1 →
      set ⊆ set1 ∧ max ≤ max1 ∧
      fill_top MSGP_ALL probe F P (fuel + 1) head set max os ok =
        fill_top MSGP_ALL probe F P fuel head1 set1 max1 os1 ok1) ∧
    (∃ r, clist_fill_fdset MSGP_ALL (det_probe (fun _ => select_fail EBADF)) ()
        [⟨9, 0, 0⟩] {9} 0 MSGP_ALL = some r ∧ r.conn_list = [] ∧ r.set = {9} ∧
        r.defined = true) ∧
    clist_fill_fdset MSGP_ALL fading_probe 0 [⟨5, 0, 0⟩, ⟨7, 0, 0⟩] ∅ 0 MSGP_ALL =
      some { conn_list := [], set := {5}, max := 5, os := 3, defined := true } := by
  have general : ∀ (σ : Type) (probe : σ → Int → select_result × σ) (os : σ)
      (l : List conn_node) (S0 : Finset Int) (F P : Int), passing_in_range MSGP_ALL F P l →
      ∃ r r0, clist_fill_fdset MSGP_ALL probe os l S0 F P = some r ∧
        clist_fill_fdset MSGP_ALL probe os l ∅ F P = some r0 ∧
        r.defined = true ∧ r0.defined = true ∧
        r.set = S0 ∪ r0.set ∧ S0 ⊆ r.set ∧
        r.conn_list = r0.conn_list ∧ r.max = r0.max ∧ r.os = r0.os := by
    intro σ probe os l S0 F P hv
    obtain ⟨r0, hr0⟩ := fill_fdset_returns MSGP_ALL probe os l ∅ F P
    have hd0 := (fill_fdset_defined_iff MSGP_ALL probe os l ∅ F P r0 hr0).2 hv
    refine ⟨r0.with_more S0, r0, ?_, hr0, hd0, hd0, rfl, Finset.subset_union_left, rfl, rfl,
      rfl⟩
    rw [fill_fdset_frame, hr0]
    rfl
  refine ⟨general, ?_, ?_, ?_, ?_⟩
  · intro l S0 F P p hv
    obtain ⟨r, r0, hr, hr0, hd, -, hset, -⟩ := general Unit (det_probe p) () l S0 F P hv
    refine ⟨r, hr, hd, ?_⟩
    rw [hset, fill_det_set MSGP_ALL p l F P r0 hr0]
  · intro σ probe F P fuel head set max os ok head1 set1 max1 os1 ok1 hs
    obtain ⟨hg, -⟩ := fill_scan_top MSGP_ALL probe F P head head set max os ok head1 set1
      max1 os1 ok1 hs
    refine ⟨hg.1, hg.2.2.1, ?_⟩
    rw [fill_top, hs]
  · refine ⟨⟨[], {9}, -1, (), true⟩, ?_, rfl, rfl, rfl⟩
    simp [clist_fill_fdset, fill_top, fill_scan, flags_skip_zero, purpose_skip_wildcard,
      bad_descriptor, det_probe, select_fail, clist_delete_nt, locate_node, locate_scan,
      fd_valid, FD_SETSIZE]
  · simp [clist_fill_fdset, fill_top, fill_scan, flags_skip_zero, purpose_skip_wildcard,
      bad_descriptor, fading_probe, select_fail, select_ok, EBADF, EINVAL, clist_delete_nt,
      locate_node, locate_scan, fd_valid, FD_SETSIZE]

/-- C18 amended, at the list with descriptors 3 and 8 with `S0 = {100}` and a probe
that always succeeds, and at the run of the loop on the list holding 9 alone with 9 in
the caller's set and a probe that fails with `EBADF`. -/
theorem C18_set_only_grows_witness :
    (passing_in_range (-1) 0 (-1) [⟨3, 0, 0⟩, ⟨8, 0, 0⟩] ∧
      ∃ r, clist_fill_fdset (-1) (det_probe (fun _ => select_ok)) ()
          [⟨3, 0, 0⟩, ⟨8, 0, 0⟩] {100} 0 (-1) = some r ∧ r.defined = true ∧
        r.set = {3, 8, 100}) ∧
    (fill_scan (-1) (det_probe (fun _ => select_fail EBADF)) 0 (-1) [⟨9, 0, 0⟩] [⟨9, 0, 0⟩]
        {9} (-1) () true = scan_end.top [] {9} (-1) () true ∧
      (({9} : Finset Int) ⊆ {9} ∧ (-1 : Int) ≤ -1 ∧
        fill_top (-1) (det_probe (fun _ => select_fail EBADF)) 0 (-1) (1 + 1) [⟨9, 0, 0⟩]
          {9} (-1) () true =
        fill_top (-1) (det_probe (fun _ => select_fail EBADF)) 0 (-1) 1 [] {9} (-1) ()
          true)) :=
  ⟨⟨by decide,
      ((C18_set_only_grows (-1)).2.1 [⟨3, 0, 0⟩, ⟨8, 0, 0⟩] {100} 0 (-1) (fun _ => select_ok)
        (by decide)).imp (fun _ h => ⟨h.1, h.2.1, h.2.2.trans (by decide)⟩)⟩,
    rfl, (C18_set_only_grows (-1)).2.2.1 Unit (det_probe (fun _ => select_fail EBADF)) 0 (-1)
      1 [⟨9, 0, 0⟩] {9} (-1) () true [] {9} (-1) () true rfl⟩

end Clist
